import Mathlib

/-!
# TrackPaths: the path-tracking instrumentation pass

A shallow embedding of `llvm/lib/Transforms/Instrumentation/TrackPaths.cpp`
and of the part of the IR object model that the pass reads and writes.

* A `BasicBlock*` is the index of the block in its function's block list,
  a `Function*` the index of the function in the module's function list.
* `predecessors(BB)` enumerates the terminator uses of `BB`; the use list is
  kept as the field `preds` of the block, in enumeration order, repetitions
  (parallel edges) included.
* The `while (!Queue.empty())` loop has no bound in the source; the embedding
  takes a fuel argument that counts evaluations of the loop condition and
  yields `none` when it runs out.
* Writes to `errs()` and to the report stream do not touch the IR and are
  left out.
-/

set_option autoImplicit false

namespace TrackPaths

/-! ## IR object model -/

/-- Types that occur in the signature of the coverage recorder. -/
inductive Ty where
  | void
  | i64
  | other
deriving DecidableEq, Repr

/-- A function type: result type and parameter types. -/
structure FunctionType where
  ret : Ty
  params : List Ty
deriving DecidableEq, Repr

/-- Instruction kinds the pass can tell apart. -/
inductive InstKind where
  /-- PHI nodes and the other leading instructions that sit before the first
  insertion point of a block. -/
  | setup
  /-- A call of the function named `callee` with one integer argument. -/
  | call (callee : String) (arg : Nat)
  /-- A terminator with its successor blocks. -/
  | terminator (succs : List Nat)
  | ordinary
deriving DecidableEq, Repr

/-- An instruction with its optional debug location (the line of it). -/
structure Instruction where
  kind : InstKind
  debugLoc : Option Nat
deriving DecidableEq, Repr

/-- A basic block: the use list that `predecessors` walks and the
instruction list. -/
structure BasicBlock where
  preds : List Nat
  insts : List Instruction
deriving DecidableEq, Repr

/-- A function; its entry block is the first block. -/
structure Function where
  name : String
  ty : FunctionType
  blocks : List BasicBlock
deriving DecidableEq, Repr

/-- Operand 0 of an annotation entry after `stripPointerCasts`. -/
inductive AnnotatedValue where
  | function (f : Nat)
  | notFunction
deriving DecidableEq, Repr

/-- An operand of the initializer of `llvm.global.annotations`. -/
inductive AnnotationElement where
  | constantStruct (operand0 : AnnotatedValue)
  | notStruct
deriving DecidableEq, Repr

/-- The initializer of `llvm.global.annotations`. -/
inductive Initializer where
  | constantArray (operands : List AnnotationElement)
  | notArray
deriving DecidableEq, Repr

/-- A module; `annotations` is `none` when the module has no global variable
named `llvm.global.annotations`. -/
structure Module where
  sourceFileName : String
  functions : List Function
  annotations : Option Initializer
deriving DecidableEq, Repr

/-- The symbol of the coverage recorder. -/
def coverageName : String := "___optmuzz_coverage"

/-- The signature `void (i64)` requested for the coverage recorder. -/
def coverageType : FunctionType := { ret := Ty.void, params := [Ty.i64] }

/-- The block `BB` of function `f`, when both exist. -/
def Module.block? (M : Module) (f BB : Nat) : Option BasicBlock :=
  (M.functions[f]?).bind (fun F => F.blocks[BB]?)

/-- The enumeration `predecessors(BB)` for block `BB` of function `f`: the use
list of the block, empty for a block that does not exist. -/
def predecessors (M : Module) (f BB : Nat) : List Nat :=
  match M.block? f BB with
  | some B => B.preds
  | none => []

/-- Source `GetBasicBlockID`: the address of the block as an integer. -/
def GetBasicBlockID (BB : Nat) : Nat := BB

/-- Modelled from the spec: `Module::getOrInsertFunction` is not part of the
sources at hand; it is an idempotent get-or-create keyed by the symbol name:
the module keeps a function of that name when it has one, and gains a
body-less declaration at the end of its function list otherwise. -/
def getOrInsertFunction (M : Module) (name : String) (ty : FunctionType) : Module :=
  if M.functions.any (fun F => F.name == name) then M
  else { M with functions := M.functions ++ [{ name := name, ty := ty, blocks := [] }] }

/-- Whether an instruction sits before the first insertion point. -/
def Instruction.isSetup (I : Instruction) : Bool :=
  match I.kind with
  | InstKind.setup => true
  | _ => false

/-- Modelled from the spec: `BasicBlock::getFirstInsertionPt` is not part of
the sources at hand; the insertion point is the position after the leading
setup instructions of the block. -/
def getFirstInsertionPt (B : BasicBlock) : Nat :=
  (B.insts.takeWhile Instruction.isSetup).length

/-- Insert instruction `I` before position `pos` of block `B`. -/
def BasicBlock.insertAt (B : BasicBlock) (pos : Nat) (I : Instruction) : BasicBlock :=
  { B with insts := B.insts.take pos ++ I :: B.insts.drop pos }

/-- The debug location that an `IRBuilder<>` set to the first insertion point
of the block gives to what it creates: that of the instruction at the
insertion point, and none at the end of the block. -/
def insertionDebugLoc (B : BasicBlock) : Option Nat :=
  match B.insts[getFirstInsertionPt B]? with
  | some I => I.debugLoc
  | none => none

/-- Source `IRBuilder<> Builder(BB, BB->getFirstInsertionPt()); Builder.CreateCall(...)`
for block `BB` of function `f`. -/
def CreateCall (M : Module) (f BB : Nat) (callee : String) (arg : Nat) : Module :=
  { M with functions := M.functions.modify (fun F =>
      { F with blocks := F.blocks.modify (fun B =>
          B.insertAt (getFirstInsertionPt B)
            { kind := InstKind.call callee arg, debugLoc := insertionDebugLoc B }) BB }) f }

/-! ## InstrumentPaths -/

/-- The `while (!Queue.empty())` loop of `InstrumentPaths`: `Queue` holds the
paths still to expand, each running from the target backwards, and `Paths`
the completed ones, each reversed to run from the entry to the target. -/
def searchLoop (preds : Nat → List Nat) (Entry : Nat) :
    Nat → List (List Nat) → List (List Nat) → Option (List (List Nat))
  | 0, _, _ => none
  | _ + 1, [], Paths => some Paths
  | fuel + 1, Path :: Queue, Paths =>
    match Path.getLast? with
    | none => none
    | some Current =>
      if Current = Entry then
        searchLoop preds Entry fuel Queue (Paths ++ [Path.reverse])
      else
        searchLoop preds Entry fuel
          (Queue ++ (preds Current).map (fun Pred => Path ++ [Pred])) Paths

/-- The search of `InstrumentPaths` from `Queue.push({&Target})` to the end
of the loop. -/
def searchPaths (preds : Nat → List Nat) (Target Entry : Nat) (fuel : Nat) :
    Option (List (List Nat)) :=
  searchLoop preds Entry fuel [[Target]] []

/-- The state of the instrumentation loops: the keys of `Instrumented` that
map to `true`, in insertion order, and the module. -/
structure InstrState where
  Instrumented : List Nat
  M : Module
deriving DecidableEq, Repr

/-- The body of the inner instrumentation loop for one block `BB`. -/
def instrumentBlock (f : Nat) (st : InstrState) (BB : Nat) : InstrState :=
  if BB ∈ st.Instrumented then st
  else
    { Instrumented := st.Instrumented ++ [BB]
      M := CreateCall st.M f BB coverageName (GetBasicBlockID BB) }

/-- The two nested instrumentation loops over `Paths`. -/
def instrumentLoop (f : Nat) (Paths : List (List Nat)) (st : InstrState) : InstrState :=
  Paths.foldl (fun st Path => Path.foldl (instrumentBlock f) st) st

/-- Source `InstrumentPaths(Target, Entry)` for blocks of function `f` of
module `M`: the returned flag and the module after the call, or `none` when
the search has not finished within `fuel`. -/
def InstrumentPaths (M : Module) (f Target Entry : Nat) (fuel : Nat) :
    Option (Bool × Module) :=
  match searchPaths (predecessors M f) Target Entry fuel with
  | none => none
  | some Paths =>
    if Paths.isEmpty then some (false, M)
    else
      let M1 := getOrInsertFunction M coverageName coverageType
      some (true, (instrumentLoop f Paths { Instrumented := [], M := M1 }).M)

/-! ## FindTargetBlock -/

/-- The inner loop of `FindTargetBlock` over the instructions of one block:
`true` when the loop reaches `return &BB`. -/
def blockHasLine (TargetLine : Nat) : List Instruction → Bool
  | [] => false
  | I :: rest =>
    match I.debugLoc with
    | some line => if line = TargetLine then true else blockHasLine TargetLine rest
    | none => blockHasLine TargetLine rest

/-- The outer loop of `FindTargetBlock`; `idx` is the index of the first
block of the list in its function. -/
def findTargetFrom (TargetLine : Nat) : List BasicBlock → Nat → Option Nat
  | [], _ => none
  | BB :: rest, idx =>
    if blockHasLine TargetLine BB.insts then some idx
    else findTargetFrom TargetLine rest (idx + 1)

/-- Source `FindTargetBlock(F, TargetLine)`; `none` is the null pointer. -/
def FindTargetBlock (F : Function) (TargetLine : Nat) : Option Nat :=
  findTargetFrom TargetLine F.blocks 0

/-! ## TrackPathsPass::run -/

/-- The configuration held by the pass object. -/
structure TrackPathsPass where
  SourceFileName : String
  TargetLine : Nat
deriving DecidableEq, Repr

/-- What the pass reports to the pass manager. -/
inductive PreservedAnalyses where
  | all
  | none
deriving DecidableEq, Repr

/-- How a call of `run` ends. -/
inductive RunResult where
  /-- The search of `InstrumentPaths` has not finished within the fuel. -/
  | outOfFuel
  /-- A `cast<T>` met a value that is not a `T`. -/
  | castFailure
  /-- The pass returned `PA`; `M` is the module after the run. -/
  | done (PA : PreservedAnalyses) (M : Module)
deriving DecidableEq, Repr

/-- Source `cast<ConstantArray>(Annotations->getInitializer())`. The checked
cast of `llvm/Support/Casting.h` never yields null: on a value of another
class it fails its assertion (and is undefined without assertions), which is
the `none` here. -/
def castConstantArray : Initializer → Option (List AnnotationElement)
  | Initializer.constantArray operands => some operands
  | Initializer.notArray => Option.none

/-- Source `cast<ConstantStruct>(CA->getOperand(i))`, as `castConstantArray`. -/
def castConstantStruct : AnnotationElement → Option AnnotatedValue
  | AnnotationElement.constantStruct operand0 => some operand0
  | AnnotationElement.notStruct => Option.none

/-- Source `cast<Function>(CS->getOperand(0)->stripPointerCasts())`, as
`castConstantArray`; a function comes with its index in the module. -/
def castFunction (M : Module) : AnnotatedValue → Option (Nat × Function)
  | AnnotatedValue.function f => (M.functions[f]?).map (fun F => (f, F))
  | AnnotatedValue.notFunction => Option.none

/-- The `for` loop of `run` over the operands of the annotation array. The
test `if (AnnotatedFunction)` has no branch here: `cast` yields no null, so
the test holds whenever it is reached. -/
def runLoop (P : TrackPathsPass) (M : Module) (fuel : Nat) :
    List AnnotationElement → RunResult
  | [] => RunResult.done PreservedAnalyses.all M
  | operand :: rest =>
    match castConstantStruct operand with
    | Option.none => RunResult.castFailure
    | some operand0 =>
      match castFunction M operand0 with
      | Option.none => RunResult.castFailure
      | some (f, AnnotatedFunction) =>
        match FindTargetBlock AnnotatedFunction P.TargetLine with
        | some TargetBlock =>
          match InstrumentPaths M f TargetBlock 0 fuel with
          | Option.none => RunResult.outOfFuel
          | some (Instrumented, M1) =>
            if Instrumented then RunResult.done PreservedAnalyses.none M1
            else RunResult.done PreservedAnalyses.all M1
        | Option.none => runLoop P M fuel rest

/-- Source `TrackPathsPass::run(M, AM)`. -/
def run (P : TrackPathsPass) (M : Module) (fuel : Nat) : RunResult :=
  if M.sourceFileName ≠ P.SourceFileName then
    RunResult.done PreservedAnalyses.all M
  else
    match M.annotations with
    | Option.none => RunResult.done PreservedAnalyses.all M
    | some init =>
      match castConstantArray init with
      | Option.none => RunResult.castFailure
      | some CA => runLoop P M fuel CA

/-! ## Notions used by the statements -/

/-- A walk of the CFG given by `preds` from `E` to `T`: a non-empty block
sequence that starts at `E`, ends at `T` and in which every element is a
predecessor of the next. -/
def IsWalk (preds : Nat → List Nat) (E T : Nat) (w : List Nat) : Prop :=
  w.head? = some E ∧ w.getLast? = some T ∧ w.Chain' (fun a b => a ∈ preds b)

/-- Whether an instruction is a call of the coverage recorder. -/
def Instruction.isCoverageCall (I : Instruction) : Bool :=
  match I.kind with
  | InstKind.call callee _ => callee == coverageName
  | _ => false

/-- The number of coverage calls in block `BB` of function `f`. -/
def coverageCalls (M : Module) (f BB : Nat) : Nat :=
  match M.block? f BB with
  | some B => B.insts.countP Instruction.isCoverageCall
  | none => 0

/-- Every predecessor listed by a block of function `f` is a block of `f`. -/
def predsInFunction (M : Module) (f : Nat) : Bool :=
  match M.functions[f]? with
  | some F => F.blocks.all (fun B => B.preds.all (fun p => decide (p < F.blocks.length)))
  | none => true

/-- The blocks that the instrumentation loops mark in `Instrumented` when
they run over `Paths`. -/
def instrumentedBlocks (M : Module) (f : Nat) (Paths : List (List Nat)) : List Nat :=
  (instrumentLoop f Paths
    { Instrumented := [], M := getOrInsertFunction M coverageName coverageType }).Instrumented

/-- A block with one ordinary instruction, of debug line `line`, and a
terminator. -/
def mkBlock (preds : List Nat) (line : Option Nat) (succs : List Nat) : BasicBlock :=
  { preds := preds
    insts := [{ kind := InstKind.ordinary, debugLoc := line },
              { kind := InstKind.terminator succs, debugLoc := none }] }

/-- A defined function of type `void ()`. -/
def mkFunction (name : String) (blocks : List BasicBlock) : Function :=
  { name := name, ty := { ret := Ty.void, params := [] }, blocks := blocks }

/-- The expansion relation of the search: `Completes preds E p w` says that
the queued path `p` grows, predecessor by predecessor and never going on
from `E`, into the path `w` that ends at `E`. -/
inductive Completes (preds : Nat → List Nat) (E : Nat) : List Nat → List Nat → Prop
  | done {p : List Nat} : p.getLast? = some E → Completes preds E p p
  | step {p w : List Nat} {c x : Nat} : p.getLast? = some c → c ≠ E → x ∈ preds c →
      Completes preds E (p ++ [x]) w → Completes preds E p w


/-- One coverage call created in each block of `blocks`, in list order. -/
def applyCalls (f : Nat) (blocks : List Nat) (M : Module) : Module :=
  blocks.foldl (fun M BB => CreateCall M f BB coverageName (GetBasicBlockID BB)) M

/-- The coverage call that `InstrumentPaths` creates in block `BB`, with the
debug location `dl` that the builder gives it. -/
def coverageCall (BB : Nat) (dl : Option Nat) : Instruction :=
  { kind := InstKind.call coverageName (GetBasicBlockID BB), debugLoc := dl }

/-- The block `mkBlock preds line succs` with the coverage call of block `BB`
in front; the call has the debug location of the instruction it is put
before. -/
def mkCoveredBlock (BB : Nat) (preds : List Nat) (line : Option Nat) (succs : List Nat) :
    BasicBlock :=
  { preds := preds, insts := coverageCall BB line :: (mkBlock preds line succs).insts }

/-- The declaration that `getOrInsertFunction` adds for the coverage recorder. -/
def coverageDecl : Function :=
  { name := coverageName, ty := coverageType, blocks := [] }

/-- A diamond: the entry 0 branches to 1 and 2, which both branch to the
target 3, the block of line 10. -/
def diamondModule : Module :=
  { sourceFileName := "a.cpp"
    functions := [mkFunction "this_function"
      [mkBlock [] none [1, 2], mkBlock [0] none [3], mkBlock [0] none [3],
       mkBlock [1, 2] (some 10) []]]
    annotations := some (Initializer.constantArray
      [AnnotationElement.constantStruct (AnnotatedValue.function 0)]) }

/-- The diamond after `InstrumentPaths`. -/
def diamondModuleAfter : Module :=
  { sourceFileName := "a.cpp"
    functions := [mkFunction "this_function"
      [mkCoveredBlock 0 [] none [1, 2], mkCoveredBlock 1 [0] none [3],
       mkCoveredBlock 2 [0] none [3], mkCoveredBlock 3 [1, 2] (some 10) []],
      coverageDecl]
    annotations := some (Initializer.constantArray
      [AnnotationElement.constantStruct (AnnotatedValue.function 0)]) }

/-- A function whose entry 0 has a predecessor: 0 and 1 form a loop, 0
branches to 2 and 2 to the target 3. -/
def entryLoopModule : Module :=
  { sourceFileName := "a.cpp"
    functions := [mkFunction "this_function"
      [mkBlock [1] none [1, 2], mkBlock [0] none [0], mkBlock [0] none [3],
       mkBlock [2] (some 10) []]]
    annotations := some (Initializer.constantArray
      [AnnotationElement.constantStruct (AnnotatedValue.function 0)]) }

/-- A fan: the entry 0 branches to 1, 2, 3, 4 and 5, which all branch to the
target 6, the block of line 10; the blocks 0 and 6 are on five paths. -/
def fanModule : Module :=
  { sourceFileName := "a.cpp"
    functions := [mkFunction "this_function"
      [mkBlock [] none [1, 2, 3, 4, 5], mkBlock [0] none [6], mkBlock [0] none [6],
       mkBlock [0] none [6], mkBlock [0] none [6], mkBlock [0] none [6],
       mkBlock [1, 2, 3, 4, 5] (some 10) []]]
    annotations := some (Initializer.constantArray
      [AnnotationElement.constantStruct (AnnotatedValue.function 0)]) }

/-- The fan after `InstrumentPaths`. -/
def fanModuleAfter : Module :=
  { sourceFileName := "a.cpp"
    functions := [mkFunction "this_function"
      [mkCoveredBlock 0 [] none [1, 2, 3, 4, 5], mkCoveredBlock 1 [0] none [6],
       mkCoveredBlock 2 [0] none [6], mkCoveredBlock 3 [0] none [6],
       mkCoveredBlock 4 [0] none [6], mkCoveredBlock 5 [0] none [6],
       mkCoveredBlock 6 [1, 2, 3, 4, 5] (some 10) []],
      coverageDecl]
    annotations := some (Initializer.constantArray
      [AnnotationElement.constantStruct (AnnotatedValue.function 0)]) }

/-- A function whose target 1, the block of line 10, is a dead block that
loops to itself; the entry 0 has no edge to it. -/
def deadLoopModule : Module :=
  { sourceFileName := "a.cpp"
    functions := [mkFunction "this_function"
      [mkBlock [] none [], mkBlock [1] (some 10) [1]]]
    annotations := some (Initializer.constantArray
      [AnnotationElement.constantStruct (AnnotatedValue.function 0)]) }

/-- A function whose target 1, the block of line 10, is a dead block without
predecessors. -/
def deadTargetModule : Module :=
  { sourceFileName := "a.cpp"
    functions := [mkFunction "this_function"
      [mkBlock [] none [], mkBlock [] (some 10) []]]
    annotations := some (Initializer.constantArray
      [AnnotationElement.constantStruct (AnnotatedValue.function 0)]) }

/-- A well-formed annotation table: one constant struct per annotated
function, the functions being those of indices `fs`. -/
def annotationTable (fs : List Nat) : Initializer :=
  Initializer.constantArray
    (fs.map (fun f => AnnotationElement.constantStruct (AnnotatedValue.function f)))

/-- Two annotated functions with an instruction of line 10: in the first it
sits in the dead block 1, in the second in the entry block. -/
def twoAnnotatedModule : Module :=
  { sourceFileName := "a.cpp"
    functions := [mkFunction "first" [mkBlock [] none [], mkBlock [] (some 10) []],
      mkFunction "second" [mkBlock [] (some 10) []]]
    annotations := some (annotationTable [0, 1]) }

/-- The module `twoAnnotatedModule` after `InstrumentPaths` on its second
function. -/
def twoAnnotatedModuleAfter : Module :=
  { sourceFileName := "a.cpp"
    functions := [mkFunction "first" [mkBlock [] none [], mkBlock [] (some 10) []],
      mkFunction "second" [mkCoveredBlock 0 [] (some 10) []],
      coverageDecl]
    annotations := some (annotationTable [0, 1]) }

/-- An annotation table whose first entry annotates a global variable and
whose second entry annotates the function 0, which holds line 10. -/
def annotatedGlobalModule : Module :=
  { sourceFileName := "a.cpp"
    functions := [mkFunction "this_function" [mkBlock [] (some 10) []]]
    annotations := some (Initializer.constantArray
      [AnnotationElement.constantStruct AnnotatedValue.notFunction,
       AnnotationElement.constantStruct (AnnotatedValue.function 0)]) }

/-- A module whose `llvm.global.annotations` has an initializer that is not a
constant array, such as `zeroinitializer`. -/
def notArrayModule : Module :=
  { sourceFileName := "a.cpp"
    functions := [mkFunction "this_function" [mkBlock [] (some 10) []]]
    annotations := some Initializer.notArray }

/-- A module whose annotation array has an element that is not a constant
struct, such as a `zeroinitializer` entry, in front of a well-formed
entry. -/
def notStructModule : Module :=
  { sourceFileName := "a.cpp"
    functions := [mkFunction "this_function" [mkBlock [] (some 10) []]]
    annotations := some (Initializer.constantArray
      [AnnotationElement.notStruct,
       AnnotationElement.constantStruct (AnnotatedValue.function 0)]) }

/-- The pass configured for line 10 of `a.cpp`. -/
def passLine10 : TrackPathsPass := { SourceFileName := "a.cpp", TargetLine := 10 }

/-- A module without a global variable named `llvm.global.annotations`. -/
def noTableModule : Module :=
  { sourceFileName := "a.cpp"
    functions := [mkFunction "this_function" [mkBlock [] (some 10) []]]
    annotations := none }

/-! ## Further notions used by the statements -/

/-- The successor list of a block: the successors of its terminator, which is
its last instruction; empty for a block that does not end in a terminator. -/
def BasicBlock.successors (B : BasicBlock) : List Nat :=
  match B.insts.getLast? with
  | some I =>
    match I.kind with
    | InstKind.terminator succs => succs
    | _ => []
  | none => []

/-- The enumeration `successors(BB)` for block `BB` of function `f`. -/
def successors (M : Module) (f BB : Nat) : List Nat :=
  match M.block? f BB with
  | some B => B.successors
  | none => []

/-- The number of functions of the module that carry the name of the coverage
recorder. -/
def recorderDecls (M : Module) : Nat :=
  M.functions.countP (fun F => F.name == coverageName)

/-- The name and the type of every function of the module, in list order. -/
def signatures (M : Module) : List (String × FunctionType) :=
  M.functions.map (fun F => (F.name, F.ty))

/-- A module that declares the coverage recorder beforehand: the diamond with
the declaration in front of the annotated function 1. -/
def declaredModule : Module :=
  { sourceFileName := "a.cpp"
    functions := [coverageDecl, mkFunction "this_function"
      [mkBlock [] none [1, 2], mkBlock [0] none [3], mkBlock [0] none [3],
       mkBlock [1, 2] (some 10) []]]
    annotations := some (annotationTable [1]) }

/-- The module `declaredModule` after `InstrumentPaths`. -/
def declaredModuleAfter : Module :=
  { sourceFileName := "a.cpp"
    functions := [coverageDecl, mkFunction "this_function"
      [mkCoveredBlock 0 [] none [1, 2], mkCoveredBlock 1 [0] none [3],
       mkCoveredBlock 2 [0] none [3], mkCoveredBlock 3 [1, 2] (some 10) []]]
    annotations := some (annotationTable [1]) }

/-- A block with a leading setup instruction, one ordinary instruction of
debug line `line`, and a terminator. -/
def mkPhiBlock (preds : List Nat) (line : Option Nat) (succs : List Nat) : BasicBlock :=
  { preds := preds
    insts := { kind := InstKind.setup, debugLoc := none } :: (mkBlock preds line succs).insts }

/-- A loop whose header is the target: the entry 0 branches to the header 1,
the block of line 10 with a leading setup instruction, and 1 branches to
itself. -/
def selfLoopModule : Module :=
  { sourceFileName := "a.cpp"
    functions := [mkFunction "this_function"
      [mkBlock [] none [1], mkPhiBlock [0, 1] (some 10) [1]]]
    annotations := some (annotationTable [0]) }

/-- A straight line whose target 1 starts with a setup instruction. -/
def phiTargetModule : Module :=
  { sourceFileName := "a.cpp"
    functions := [mkFunction "this_function"
      [mkBlock [] none [1], mkPhiBlock [0] (some 10) []]]
    annotations := some (annotationTable [0]) }

/-- The module `phiTargetModule` after `InstrumentPaths`. -/
def phiTargetModuleAfter : Module :=
  { sourceFileName := "a.cpp"
    functions := [mkFunction "this_function"
      [mkCoveredBlock 0 [] none [1],
       { preds := [0]
         insts := [{ kind := InstKind.setup, debugLoc := none }, coverageCall 1 (some 10),
                   { kind := InstKind.ordinary, debugLoc := some 10 },
                   { kind := InstKind.terminator [], debugLoc := none }] }],
      coverageDecl]
    annotations := some (annotationTable [0]) }

/-- The module after `n` runs of `InstrumentPaths` in a row, each on the
module that the run before has left, with the same target and entry. -/
def InstrumentPathsTimes (f Target Entry fuel : Nat) : Nat → Module → Option Module
  | 0, M => some M
  | n + 1, M =>
    match InstrumentPaths M f Target Entry fuel with
    | some (_, M1) => InstrumentPathsTimes f Target Entry fuel n M1
    | none => none

/-- The diamond after two runs of `InstrumentPaths`. -/
def diamondModuleTwice : Module :=
  { sourceFileName := "a.cpp"
    functions := [mkFunction "this_function"
      [{ preds := [], insts := coverageCall 0 none :: (mkCoveredBlock 0 [] none [1, 2]).insts },
       { preds := [0], insts := coverageCall 1 none :: (mkCoveredBlock 1 [0] none [3]).insts },
       { preds := [0], insts := coverageCall 2 none :: (mkCoveredBlock 2 [0] none [3]).insts },
       { preds := [1, 2],
         insts := coverageCall 3 (some 10) :: (mkCoveredBlock 3 [1, 2] (some 10) []).insts }],
      coverageDecl]
    annotations := some (Initializer.constantArray
      [AnnotationElement.constantStruct (AnnotatedValue.function 0)]) }

/-- The queue and the recorded paths after `n` iterations of the
`while (!Queue.empty())` loop of `InstrumentPaths`, or at the end of the loop
when it ends before; the loop body is that of `searchLoop`. -/
def searchSteps (preds : Nat → List Nat) (Entry : Nat) :
    Nat → List (List Nat) → List (List Nat) → List (List Nat) × List (List Nat)
  | 0, Queue, Paths => (Queue, Paths)
  | _ + 1, [], Paths => ([], Paths)
  | n + 1, Path :: Queue, Paths =>
    match Path.getLast? with
    | none => (Path :: Queue, Paths)
    | some Current =>
      if Current = Entry then
        searchSteps preds Entry n Queue (Paths ++ [Path.reverse])
      else
        searchSteps preds Entry n
          (Queue ++ (preds Current).map (fun Pred => Path ++ [Pred])) Paths

/-- A step backward along a CFG edge: from `b` to `a`, a predecessor of `b`. -/
def backEdge (preds : Nat → List Nat) (b a : Nat) : Prop :=
  a ∈ preds b

/-- A step of the search: from a block `b` other than the entry `E` to `a`, a
predecessor of `b`. -/
def expandEdge (preds : Nat → List Nat) (E : Nat) (b a : Nat) : Prop :=
  b ≠ E ∧ a ∈ preds b

/-- A cycle of `R` can be reached from `T` along `R`: some block `c` is
reached from `T` in any number of steps and from itself in one step or
more. -/
def CycleReachable (R : Nat → Nat → Prop) (T : Nat) : Prop :=
  ∃ c, Relation.ReflTransGen R T c ∧ Relation.TransGen R c c

/-- A bound on the number of loop iterations that the search spends on a
queued path with last block `c`, when no path grows by more than `d` blocks
from there: one iteration for the path and those for the paths it is
expanded into. -/
def searchCost (preds : Nat → List Nat) (E : Nat) : Nat → Nat → Nat
  | 0, _ => 1
  | d + 1, c => if c = E then 1 else 1 + ((preds c).map (searchCost preds E d)).sum

/-- The bound `searchCost` for a queued path, none of whose extensions is
longer than `L`. -/
def pathCost (preds : Nat → List Nat) (E L : Nat) (p : List Nat) : Nat :=
  match p.getLast? with
  | some c => searchCost preds E (L - p.length) c
  | none => 0

/-- The number of blocks of function `f`. -/
def numBlocks (M : Module) (f : Nat) : Nat :=
  match M.functions[f]? with
  | some F => F.blocks.length
  | none => 0

/-- Whether every block of function `f` lists only blocks of a smaller index
as predecessors. -/
def predsBelow (M : Module) (f : Nat) : Bool :=
  (List.range (numBlocks M f)).all
    (fun b => (predecessors M f b).all (fun a => decide (a < b)))

/-- The breadth-first order of a queue and of the recorded paths: both are
in order of non-decreasing length, no recorded path is longer than a queued
one, and no queued path is longer than another by more than one block. -/
def BreadthFirst (Queue Paths : List (List Nat)) : Prop :=
  Paths.Pairwise (fun p q => p.length ≤ q.length) ∧
    Queue.Pairwise (fun p q => p.length ≤ q.length) ∧
    (∀ a ∈ Paths, ∀ q ∈ Queue, a.length ≤ q.length) ∧
    (∀ q ∈ Queue, ∀ q' ∈ Queue, q'.length ≤ q.length + 1)

/-- The number of ways in which the search grows a queued path with last
block `c`, block by block through `ext`, into a path that it records: each
step from a block other than the entry `E` to the next block counts as often
as the predecessor enumeration lists that block. -/
def extendCount (preds : Nat → List Nat) (E : Nat) : Nat → List Nat → Nat
  | c, [] => if c = E then 1 else 0
  | c, x :: ext => if c = E then 0 else (preds c).count x * extendCount preds E x ext

/-- The number of times that the search, from the queued path `p`, records
the path `w` (read from the target backwards). -/
def queuedCount (preds : Nat → List Nat) (E : Nat) (p w : List Nat) : Nat :=
  match p.getLast? with
  | some c => if p <+: w then extendCount preds E c (w.drop p.length) else 0
  | none => 0

/-- The product, over the steps from a block `b` to the next block `a` of a
path read from the target backwards, of the number of times that the
predecessor enumeration of `b` lists `a`. -/
def edgeMultiplicity (preds : Nat → List Nat) : List Nat → Nat
  | b :: a :: rest => (preds b).count a * edgeMultiplicity preds (a :: rest)
  | _ => 1

/-- The product, over the edges of a path from the entry to the target, of
the number of times that the edge is listed. -/
def pathMultiplicity (preds : Nat → List Nat) (r : List Nat) : Nat :=
  edgeMultiplicity preds r.reverse

/-- A target 1 that lists the entry 0 twice as its predecessor, as for a
conditional branch with both successors equal. -/
def parallelEdgeModule : Module :=
  { sourceFileName := "a.cpp"
    functions := [mkFunction "this_function"
      [mkBlock [] none [1, 1], mkBlock [0, 0] (some 10) []]]
    annotations := some (annotationTable [0]) }

/-- A module in which the name of the coverage recorder is declared
beforehand with another type, `other ()`, in front of the annotated function
1, whose entry holds line 10. -/
def otherTypeModule : Module :=
  { sourceFileName := "a.cpp"
    functions := [{ name := coverageName, ty := { ret := Ty.other, params := [] }, blocks := [] },
      mkFunction "this_function" [mkBlock [] (some 10) []]]
    annotations := some (annotationTable [1]) }

/-- The module `otherTypeModule` after `InstrumentPaths`. -/
def otherTypeModuleAfter : Module :=
  { sourceFileName := "a.cpp"
    functions := [{ name := coverageName, ty := { ret := Ty.other, params := [] }, blocks := [] },
      mkFunction "this_function" [mkCoveredBlock 0 [] (some 10) []]]
    annotations := some (annotationTable [1]) }

/-- A straight line with two doubled edges: block 1 lists the entry 0 twice
and the target 2 lists block 1 twice. -/
def twoParallelEdgesModule : Module :=
  { sourceFileName := "a.cpp"
    functions := [mkFunction "this_function"
      [mkBlock [] none [1, 1], mkBlock [0, 0] none [2, 2], mkBlock [1, 1] (some 10) []]]
    annotations := some (annotationTable [0]) }

/-! ## The backward search -/

theorem completes_iff (preds : Nat → List Nat) (E : Nat) (p w : List Nat) :
    Completes preds E p w ↔
      (p.getLast? = some E ∧ w = p) ∨
      (∃ c x, p.getLast? = some c ∧ c ≠ E ∧ x ∈ preds c ∧ Completes preds E (p ++ [x]) w) := by
  constructor
  · intro h
    cases h with
    | done h => exact Or.inl ⟨h, rfl⟩
    | step h1 h2 h3 h4 => exact Or.inr ⟨_, _, h1, h2, h3, h4⟩
  · rintro (⟨h, rfl⟩ | ⟨c, x, h1, h2, h3, h4⟩)
    · exact Completes.done h
    · exact Completes.step h1 h2 h3 h4

theorem searchLoop_mem (preds : Nat → List Nat) (E : Nat) :
    ∀ (fuel : Nat) (Queue Paths R : List (List Nat)),
      searchLoop preds E fuel Queue Paths = some R →
      ∀ r, r ∈ R ↔ r ∈ Paths ∨ ∃ p ∈ Queue, ∃ w, Completes preds E p w ∧ r = w.reverse := by
  intro fuel
  induction fuel with
  | zero => intro Queue Paths R h; simp [searchLoop] at h
  | succ fuel ih =>
    intro Queue Paths R h r
    cases Queue with
    | nil =>
      simp [searchLoop] at h
      subst h
      simp
    | cons p q =>
      rw [searchLoop] at h
      cases hl : p.getLast? with
      | none => rw [hl] at h; simp at h
      | some c =>
        rw [hl] at h
        simp only at h
        by_cases hc : c = E
        · rw [if_pos hc] at h
          rw [ih _ _ _ h r]
          subst hc
          constructor
          · rintro (h1 | ⟨p', hp', w, hw, rfl⟩)
            · rcases List.mem_append.1 h1 with h1 | h1
              · exact Or.inl h1
              · rw [List.mem_singleton] at h1
                exact Or.inr ⟨p, List.mem_cons_self _ _, p, Completes.done hl, h1⟩
            · exact Or.inr ⟨p', List.mem_cons_of_mem _ hp', w, hw, rfl⟩
          · rintro (h1 | ⟨p', hp', w, hw, rfl⟩)
            · exact Or.inl (List.mem_append_left _ h1)
            · rcases List.mem_cons.1 hp' with rfl | hp'
              · rcases (completes_iff preds c p' w).1 hw with ⟨_, rfl⟩ | ⟨c', x, h1, h2, _, _⟩
                · exact Or.inl (List.mem_append_right _ (List.mem_singleton.2 rfl))
                · rw [hl] at h1
                  exact absurd (Option.some.inj h1).symm h2
              · exact Or.inr ⟨p', hp', w, hw, rfl⟩
        · rw [if_neg hc] at h
          rw [ih _ _ _ h r]
          constructor
          · rintro (h1 | ⟨p', hp', w, hw, rfl⟩)
            · exact Or.inl h1
            · rcases List.mem_append.1 hp' with hp' | hp'
              · exact Or.inr ⟨p', List.mem_cons_of_mem _ hp', w, hw, rfl⟩
              · obtain ⟨x, hx, rfl⟩ := List.mem_map.1 hp'
                exact Or.inr ⟨p, List.mem_cons_self _ _, w, Completes.step hl hc hx hw, rfl⟩
          · rintro (h1 | ⟨p', hp', w, hw, rfl⟩)
            · exact Or.inl h1
            · rcases List.mem_cons.1 hp' with rfl | hp'
              · rcases (completes_iff preds E p' w).1 hw with ⟨h1, _⟩ | ⟨c', x, h1, _, h3, h4⟩
                · rw [hl] at h1
                  exact absurd (Option.some.inj h1) hc
                · rw [hl] at h1
                  obtain rfl := Option.some.inj h1
                  exact Or.inr ⟨p' ++ [x], List.mem_append_right _ (List.mem_map.2 ⟨x, h3, rfl⟩),
                    w, h4, rfl⟩
              · exact Or.inr ⟨p', List.mem_append_left _ hp', w, hw, rfl⟩


theorem completes_sound (preds : Nat → List Nat) (E : Nat) {p w : List Nat}
    (h : Completes preds E p w) :
    (∃ ext, w = p ++ ext) ∧ w.getLast? = some E ∧
      (p.Chain' (fun b a => a ∈ preds b) → w.Chain' (fun b a => a ∈ preds b)) ∧
      ∀ y ∈ w.dropLast, y ∈ p.dropLast ∨ y ≠ E := by
  induction h with
  | done h => exact ⟨⟨[], by simp⟩, h, id, fun y hy => Or.inl hy⟩
  | @step p w c x h1 h2 h3 _ ih =>
    obtain ⟨⟨ext, hext⟩, hlast, hchain, hdrop⟩ := ih
    refine ⟨⟨x :: ext, by simp [hext]⟩, hlast, ?_, ?_⟩
    · intro hp
      apply hchain
      refine List.Chain'.append hp (List.chain'_singleton x) ?_
      intro a ha b hb
      rw [h1] at ha
      simp at ha hb
      subst ha hb
      exact h3
    · intro y hy
      rcases hdrop y hy with hy | hy
      · rw [List.dropLast_concat] at hy
        have hp : p.dropLast ++ [c] = p := List.dropLast_append_getLast? c (by simp [h1])
        rw [← hp] at hy
        rcases List.mem_append.1 hy with hy | hy
        · exact Or.inl hy
        · rw [List.mem_singleton] at hy
          exact Or.inr (hy ▸ h2)
      · exact Or.inr hy

theorem completes_complete (preds : Nat → List Nat) (E : Nat) :
    ∀ (ext p : List Nat) (c : Nat), p.getLast? = some c →
      (p ++ ext).Chain' (fun b a => a ∈ preds b) →
      (p ++ ext).getLast? = some E →
      (∀ y ∈ (c :: ext).dropLast, y ≠ E) →
      Completes preds E p (p ++ ext) := by
  intro ext
  induction ext with
  | nil =>
    intro p c _ _ hlast _
    rw [List.append_nil] at hlast ⊢
    exact Completes.done hlast
  | cons x ext ih =>
    intro p c hc hchain hlast hne
    have hcE : c ≠ E := hne c (by simp [List.dropLast])
    have hp : p.dropLast ++ [c] = p := List.dropLast_append_getLast? c (by simp [hc])
    have hx : x ∈ preds c := by
      rw [← hp, List.append_assoc] at hchain
      have h2 := (List.chain'_append.1 hchain).2.1
      simpa using h2.rel_head
    have heq : p ++ x :: ext = (p ++ [x]) ++ ext := by simp
    rw [heq] at hchain hlast ⊢
    refine Completes.step hc hcE hx (ih (p ++ [x]) x (by simp) hchain hlast ?_)
    intro y hy
    apply hne
    simp only [List.dropLast]
    exact List.mem_cons_of_mem _ hy

theorem completes_target_iff (preds : Nat → List Nat) (E T : Nat) (w : List Nat) :
    Completes preds E [T] w ↔ IsWalk preds E T w.reverse ∧ E ∉ w.reverse.tail := by
  constructor
  · intro h
    obtain ⟨⟨ext, hext⟩, hlast, hchain, hdrop⟩ := completes_sound preds E h
    refine ⟨⟨?_, ?_, ?_⟩, ?_⟩
    · rw [List.head?_reverse]; exact hlast
    · rw [List.getLast?_reverse, hext]; rfl
    · rw [List.chain'_reverse]
      exact hchain (List.chain'_singleton T)
    · intro hE
      rw [List.tail_reverse, List.mem_reverse] at hE
      rcases hdrop E hE with h1 | h1
      · simp at h1
      · exact h1 rfl
  · rintro ⟨⟨hhead, hlast, hchain⟩, hE⟩
    rw [List.head?_reverse] at hhead
    rw [List.getLast?_reverse] at hlast
    rw [List.chain'_reverse] at hchain
    rw [List.tail_reverse, List.mem_reverse] at hE
    cases w with
    | nil => simp at hhead
    | cons t ext =>
      simp at hlast
      subst hlast
      have := completes_complete preds E ext [t] t rfl hchain hhead (fun y hy hyE => hE (hyE ▸ hy))
      simpa using this

/-- The paths that a finished search has recorded are the walks from the
entry to the target that meet the entry at their start only. -/
theorem searchPaths_mem (preds : Nat → List Nat) (T E fuel : Nat) (Paths : List (List Nat))
    (h : searchPaths preds T E fuel = some Paths) (r : List Nat) :
    r ∈ Paths ↔ IsWalk preds E T r ∧ E ∉ r.tail := by
  rw [searchLoop_mem preds E fuel _ _ _ h r]
  constructor
  · rintro (h1 | ⟨p, hp, w, hw, rfl⟩)
    · simp at h1
    · rw [List.mem_singleton] at hp
      subst hp
      exact (completes_target_iff preds E T w).1 hw
  · intro hr
    refine Or.inr ⟨[T], List.mem_singleton.2 rfl, r.reverse, ?_, by simp⟩
    rw [completes_target_iff, List.reverse_reverse]
    exact hr


/-! ## The instrumentation loops -/

theorem block?_CreateCall (M : Module) (f BB : Nat) (callee : String) (arg : Nat) (g c : Nat) :
    (CreateCall M f BB callee arg).block? g c =
      if g = f ∧ c = BB then
        (M.block? f BB).map (fun B => B.insertAt (getFirstInsertionPt B)
          { kind := InstKind.call callee arg, debugLoc := insertionDebugLoc B })
      else M.block? g c := by
  unfold Module.block? CreateCall
  simp only [List.getElem?_modify]
  by_cases hg : f = g
  · subst hg
    cases hF : M.functions[f]? with
    | none => simp
    | some F =>
      simp only [if_true, Option.map_eq_map, Option.map_some', Option.some_bind, true_and,
        List.getElem?_modify]
      by_cases hc : BB = c
      · subst hc
        cases hB : F.blocks[BB]? <;> simp
      · have hc2 : ¬ c = BB := fun h => hc h.symm
        cases hB : F.blocks[c]? <;> simp [hc, hc2]
  · have hg2 : ¬ g = f := fun h => hg h.symm
    cases hF : M.functions[g]? <;> simp [hg, hg2]

theorem countP_insertAt (B : BasicBlock) (pos : Nat) (I : Instruction) (p : Instruction → Bool) :
    (B.insertAt pos I).insts.countP p = B.insts.countP p + (if p I then 1 else 0) := by
  unfold BasicBlock.insertAt
  simp only [List.countP_append, List.countP_cons]
  have h := congrArg (List.countP p) (List.take_append_drop pos B.insts)
  rw [List.countP_append] at h
  omega

theorem coverageCalls_CreateCall (M : Module) (f BB : Nat) (arg : Nat) (g c : Nat) :
    coverageCalls (CreateCall M f BB coverageName arg) g c =
      coverageCalls M g c + (if g = f ∧ c = BB ∧ (M.block? f BB).isSome then 1 else 0) := by
  unfold coverageCalls
  rw [block?_CreateCall]
  by_cases h : g = f ∧ c = BB
  · obtain ⟨rfl, rfl⟩ := h
    cases hB : M.block? g c with
    | none => simp
    | some B =>
      simp [countP_insertAt, Instruction.isCoverageCall]
  · rw [if_neg h]
    have : ¬ (g = f ∧ c = BB ∧ (M.block? f BB).isSome) := fun h2 => h ⟨h2.1, h2.2.1⟩
    simp [this]

theorem isSome_block?_CreateCall (M : Module) (f BB : Nat) (callee : String) (arg : Nat)
    (g c : Nat) :
    ((CreateCall M f BB callee arg).block? g c).isSome = (M.block? g c).isSome := by
  rw [block?_CreateCall]
  by_cases h : g = f ∧ c = BB
  · obtain ⟨rfl, rfl⟩ := h
    cases hB : M.block? g c <;> simp
  · rw [if_neg h]

theorem isSome_block?_applyCalls (f : Nat) (blocks : List Nat) :
    ∀ (M : Module) (g c : Nat),
      ((applyCalls f blocks M).block? g c).isSome = (M.block? g c).isSome := by
  induction blocks with
  | nil => intro M g c; rfl
  | cons b rest ih =>
    intro M g c
    show ((applyCalls f rest (CreateCall M f b coverageName (GetBasicBlockID b))).block? g c).isSome = _
    rw [ih, isSome_block?_CreateCall]

theorem coverageCalls_applyCalls (f : Nat) (blocks : List Nat) :
    ∀ (M : Module) (g c : Nat),
      coverageCalls (applyCalls f blocks M) g c =
        coverageCalls M g c +
          (if g = f ∧ (M.block? f c).isSome then blocks.count c else 0) := by
  induction blocks with
  | nil => intro M g c; simp [applyCalls]
  | cons b rest ih =>
    intro M g c
    show coverageCalls (applyCalls f rest (CreateCall M f b coverageName (GetBasicBlockID b))) g c = _
    rw [ih, coverageCalls_CreateCall, isSome_block?_CreateCall, List.count_cons]
    by_cases hg : g = f
    · subst hg
      by_cases hv : (M.block? g c).isSome
      · by_cases hc : c = b
        · subst hc
          simp [hv]
          omega
        · have hc2 : ¬ b = c := fun h => hc h.symm
          simp [hv, hc, hc2]
      · by_cases hc : c = b
        · subst hc
          simp [hv]
        · simp [hv, hc]
    · simp [hg]

theorem block?_getOrInsertFunction (M : Module) (name : String) (ty : FunctionType)
    (g c : Nat) :
    (getOrInsertFunction M name ty).block? g c = M.block? g c := by
  unfold getOrInsertFunction
  split
  · rfl
  · unfold Module.block?
    simp only
    rcases Nat.lt_trichotomy g M.functions.length with h | h | h
    · rw [List.getElem?_append_left h]
    · subst h
      simp
    · rw [List.getElem?_eq_none (by simp; omega), List.getElem?_eq_none (by omega)]

theorem coverageCalls_getOrInsertFunction (M : Module) (name : String) (ty : FunctionType)
    (g c : Nat) :
    coverageCalls (getOrInsertFunction M name ty) g c = coverageCalls M g c := by
  unfold coverageCalls
  rw [block?_getOrInsertFunction]

/-- What the inner loop body keeps true: no block is marked twice and the
module is the start module with one call created per marked block. -/
theorem instrumentBlock_inv (f : Nat) (M0 : Module) (st : InstrState) (BB : Nat)
    (h : st.Instrumented.Nodup ∧ st.M = applyCalls f st.Instrumented M0) :
    (instrumentBlock f st BB).Instrumented.Nodup ∧
      (instrumentBlock f st BB).M = applyCalls f (instrumentBlock f st BB).Instrumented M0 ∧
      ∀ b, b ∈ (instrumentBlock f st BB).Instrumented ↔ b ∈ st.Instrumented ∨ b = BB := by
  unfold instrumentBlock
  by_cases hin : BB ∈ st.Instrumented
  · rw [if_pos hin]
    refine ⟨h.1, h.2, fun b => ⟨Or.inl, ?_⟩⟩
    rintro (hb | rfl)
    · exact hb
    · exact hin
  · rw [if_neg hin]
    refine ⟨?_, ?_, ?_⟩
    · exact List.Nodup.append h.1 (List.nodup_singleton BB) (by simpa using hin)
    · simp only [applyCalls, List.foldl_append, List.foldl_cons, List.foldl_nil]
      rw [h.2]
      rfl
    · intro b
      simp

theorem foldl_instrumentBlock_inv (f : Nat) (M0 : Module) (Path : List Nat) :
    ∀ (st : InstrState), st.Instrumented.Nodup ∧ st.M = applyCalls f st.Instrumented M0 →
      (Path.foldl (instrumentBlock f) st).Instrumented.Nodup ∧
      (Path.foldl (instrumentBlock f) st).M =
        applyCalls f (Path.foldl (instrumentBlock f) st).Instrumented M0 ∧
      ∀ b, b ∈ (Path.foldl (instrumentBlock f) st).Instrumented ↔
        b ∈ st.Instrumented ∨ b ∈ Path := by
  induction Path with
  | nil => intro st h; exact ⟨h.1, h.2, fun b => by simp⟩
  | cons x rest ih =>
    intro st h
    obtain ⟨h1, h2, h3⟩ := instrumentBlock_inv f M0 st x h
    obtain ⟨k1, k2, k3⟩ := ih (instrumentBlock f st x) ⟨h1, h2⟩
    refine ⟨k1, k2, fun b => ?_⟩
    rw [List.foldl_cons, k3, h3, List.mem_cons, or_assoc]

theorem instrumentLoop_inv (f : Nat) (M0 : Module) (Paths : List (List Nat)) :
    ∀ (st : InstrState), st.Instrumented.Nodup ∧ st.M = applyCalls f st.Instrumented M0 →
      (instrumentLoop f Paths st).Instrumented.Nodup ∧
      (instrumentLoop f Paths st).M =
        applyCalls f (instrumentLoop f Paths st).Instrumented M0 ∧
      ∀ b, b ∈ (instrumentLoop f Paths st).Instrumented ↔
        b ∈ st.Instrumented ∨ ∃ p ∈ Paths, b ∈ p := by
  induction Paths with
  | nil => intro st h; exact ⟨h.1, h.2, fun b => by simp [instrumentLoop]⟩
  | cons p rest ih =>
    intro st h
    obtain ⟨h1, h2, h3⟩ := foldl_instrumentBlock_inv f M0 p st h
    obtain ⟨k1, k2, k3⟩ := ih (p.foldl (instrumentBlock f) st) ⟨h1, h2⟩
    refine ⟨k1, k2, fun b => ?_⟩
    show b ∈ (instrumentLoop f rest (p.foldl (instrumentBlock f) st)).Instrumented ↔ _
    rw [k3, h3]
    simp only [List.mem_cons, exists_eq_or_imp, or_assoc]

/-- The call counts after the instrumentation loops that `InstrumentPaths`
runs over `Paths`: one more in every existing block of `f` that is on a path,
unchanged elsewhere. -/
theorem coverageCalls_instrumentLoop (M : Module) (f : Nat) (Paths : List (List Nat))
    (g c : Nat) :
    coverageCalls (instrumentLoop f Paths
        { Instrumented := [], M := getOrInsertFunction M coverageName coverageType }).M g c =
      coverageCalls M g c +
        (if g = f ∧ (M.block? f c).isSome ∧ c ∈ instrumentedBlocks M f Paths then 1 else 0) := by
  obtain ⟨h1, h2, _⟩ := instrumentLoop_inv f (getOrInsertFunction M coverageName coverageType)
    Paths { Instrumented := [], M := getOrInsertFunction M coverageName coverageType }
    ⟨List.nodup_nil, rfl⟩
  rw [h2, coverageCalls_applyCalls, coverageCalls_getOrInsertFunction,
    block?_getOrInsertFunction]
  unfold instrumentedBlocks
  by_cases hg : g = f
  · by_cases hv : (M.block? f c).isSome
    · by_cases hc : c ∈ (instrumentLoop f Paths
          { Instrumented := [], M := getOrInsertFunction M coverageName coverageType }).Instrumented
      · simp [hg, hv, hc, List.count_eq_one_of_mem h1 hc]
      · simp [hg, hv, hc, List.count_eq_zero_of_not_mem hc]
    · simp [hg, hv]
  · simp [hg]

theorem mem_instrumentedBlocks (M : Module) (f : Nat) (Paths : List (List Nat)) (b : Nat) :
    b ∈ instrumentedBlocks M f Paths ↔ ∃ p ∈ Paths, b ∈ p := by
  obtain ⟨_, _, h3⟩ := instrumentLoop_inv f (getOrInsertFunction M coverageName coverageType)
    Paths { Instrumented := [], M := getOrInsertFunction M coverageName coverageType }
    ⟨List.nodup_nil, rfl⟩
  unfold instrumentedBlocks
  rw [h3]
  simp

theorem isSome_block?_of_mem_predecessors (M : Module) (f : Nat)
    (hwf : predsInFunction M f = true) {a b : Nat} (h : a ∈ predecessors M f b) :
    (M.block? f a).isSome = true := by
  unfold predecessors at h
  unfold predsInFunction at hwf
  unfold Module.block? at h ⊢
  cases hF : M.functions[f]? with
  | none => simp [hF] at h
  | some F =>
    rw [hF] at h hwf
    simp only [Option.some_bind] at h ⊢
    cases hB : F.blocks[b]? with
    | none => simp [hB] at h
    | some B =>
      rw [hB] at h
      simp only at h hwf
      rw [List.all_eq_true] at hwf
      have h1 := hwf B (List.getElem?_mem hB)
      rw [List.all_eq_true] at h1
      have h2 := h1 a h
      simp only [decide_eq_true_eq] at h2
      simp [List.getElem?_eq_getElem h2]

/-- Every block of a walk that ends at an existing block exists. -/
theorem isSome_block?_of_mem_walk (M : Module) (f : Nat) (hwf : predsInFunction M f = true)
    (E T : Nat) (hT : (M.block? f T).isSome = true) :
    ∀ (w : List Nat), IsWalk (predecessors M f) E T w → ∀ b ∈ w, (M.block? f b).isSome = true := by
  intro w hw
  obtain ⟨-, hlast, hchain⟩ := hw
  induction w with
  | nil => intro b hb; simp at hb
  | cons x rest ih =>
    intro b hb
    cases rest with
    | nil =>
      simp at hlast hb
      subst hlast hb
      exact hT
    | cons y rest =>
      rw [List.chain'_cons] at hchain
      rcases List.mem_cons.1 hb with rfl | hb
      · exact isSome_block?_of_mem_predecessors M f hwf hchain.1
      · exact ih (by simpa using hlast) hchain.2 b hb

theorem preds_ne_nil_of_mem_chain (preds : Nat → List Nat) (e : Nat) :
    ∀ (x : Nat) (l : List Nat), (x :: l).Chain' (fun a b => a ∈ preds b) → e ∈ l →
      preds e ≠ [] := by
  intro x l
  induction l generalizing x with
  | nil => intro _ h; simp at h
  | cons y rest ih =>
    intro hchain hmem
    rw [List.chain'_cons] at hchain
    rcases List.mem_cons.1 hmem with rfl | hmem
    · exact List.ne_nil_of_mem hchain.1
    · exact ih y hchain.2 hmem

/-- A walk that starts at a block without predecessors meets it only there. -/
theorem not_mem_tail_of_no_preds (preds : Nat → List Nat) (E T : Nat) (w : List Nat)
    (hw : IsWalk preds E T w) (hE : preds E = []) : E ∉ w.tail := by
  obtain ⟨_, _, hchain⟩ := hw
  cases w with
  | nil => simp
  | cons x rest =>
    intro hmem
    exact preds_ne_nil_of_mem_chain preds E x rest hchain hmem hE

/-! ## Path tracking: the claims -/

theorem InstrumentPaths_eq_some (M : Module) (f T E fuel : Nat) (r : Bool) (M' : Module)
    (hrun : InstrumentPaths M f T E fuel = some (r, M')) :
    ∃ Paths, searchPaths (predecessors M f) T E fuel = some Paths ∧
      r = !Paths.isEmpty ∧
      (Paths = [] → M' = M) ∧
      ∀ g c, coverageCalls M' g c = coverageCalls M g c +
        (if g = f ∧ (M.block? f c).isSome ∧ c ∈ instrumentedBlocks M f Paths then 1 else 0) := by
  unfold InstrumentPaths at hrun
  cases hs : searchPaths (predecessors M f) T E fuel with
  | none => rw [hs] at hrun; simp at hrun
  | some Paths =>
    rw [hs] at hrun
    refine ⟨Paths, rfl, ?_⟩
    cases Paths with
    | nil =>
      simp at hrun
      obtain ⟨rfl, rfl⟩ := hrun
      refine ⟨rfl, fun _ => rfl, fun g c => ?_⟩
      simp [instrumentedBlocks, instrumentLoop]
    | cons p rest =>
      simp at hrun
      obtain ⟨rfl, rfl⟩ := hrun
      refine ⟨rfl, fun h => by simp at h, fun g c => ?_⟩
      exact coverageCalls_instrumentLoop M f (p :: rest) g c

/-- The blocks that gain a coverage call in a run of `InstrumentPaths`, on a
function whose predecessor lists name blocks of the function and whose target
`T` is one of its blocks: those on a walk from the entry `E` to `T` that meets
`E` at its start only. -/
theorem call_iff_on_entry_first_walk (M : Module) (f T E fuel : Nat) (r : Bool)
    (M' : Module) (hrun : InstrumentPaths M f T E fuel = some (r, M'))
    (hwf : predsInFunction M f = true) (hT : (M.block? f T).isSome = true) (b : Nat) :
    coverageCalls M f b < coverageCalls M' f b ↔
      ∃ w, IsWalk (predecessors M f) E T w ∧ E ∉ w.tail ∧ b ∈ w := by
  obtain ⟨Paths, hs, -, -, hcount⟩ := InstrumentPaths_eq_some M f T E fuel r M' hrun
  rw [hcount f b]
  constructor
  · intro h
    split at h
    · rename_i hc
      obtain ⟨p, hp, hb⟩ := (mem_instrumentedBlocks M f Paths b).1 hc.2.2
      have := (searchPaths_mem _ T E fuel Paths hs p).1 hp
      exact ⟨p, this.1, this.2, hb⟩
    · omega
  · rintro ⟨w, hw, hE, hb⟩
    have hmem : w ∈ Paths := (searchPaths_mem _ T E fuel Paths hs w).2 ⟨hw, hE⟩
    have hv := isSome_block?_of_mem_walk M f hwf E T hT w hw b hb
    have hin : b ∈ instrumentedBlocks M f Paths :=
      (mem_instrumentedBlocks M f Paths b).2 ⟨w, hmem, hb⟩
    rw [if_pos ⟨rfl, hv, hin⟩]
    omega

/-- C1: when `InstrumentPaths` returns, on a function whose entry `E` has no
predecessor, whose predecessor lists name blocks of the function and whose
target `T` is one of its blocks, the blocks that have gained a coverage call
are exactly the blocks on a walk from `E` to `T` along CFG edges: no block on
such a walk is missed and no block off every such walk gains a call. -/
theorem instrumented_iff_on_walk (M : Module) (f T E fuel : Nat) (r : Bool)
    (M' : Module) (hrun : InstrumentPaths M f T E fuel = some (r, M'))
    (hwf : predsInFunction M f = true) (hT : (M.block? f T).isSome = true)
    (hE : predecessors M f E = []) (b : Nat) :
    coverageCalls M f b < coverageCalls M' f b ↔
      ∃ w, IsWalk (predecessors M f) E T w ∧ b ∈ w := by
  rw [call_iff_on_entry_first_walk M f T E fuel r M' hrun hwf hT b]
  constructor
  · rintro ⟨w, hw, _, hb⟩
    exact ⟨w, hw, hb⟩
  · rintro ⟨w, hw, hb⟩
    exact ⟨w, hw, not_mem_tail_of_no_preds _ E T w hw hE, hb⟩

/-- C1, witness: the diamond, and its block 1. -/
theorem instrumented_iff_on_walk_witness :
    InstrumentPaths diamondModule 0 3 0 10 = some (true, diamondModuleAfter) ∧
      predsInFunction diamondModule 0 = true ∧
      (diamondModule.block? 0 3).isSome = true ∧
      predecessors diamondModule 0 0 = [] ∧
      (coverageCalls diamondModule 0 1 < coverageCalls diamondModuleAfter 0 1 ↔
        ∃ w, IsWalk (predecessors diamondModule 0) 0 3 w ∧ 1 ∈ w) :=
  ⟨by decide, by decide, by decide, by decide,
    instrumented_iff_on_walk diamondModule 0 3 0 10 true diamondModuleAfter
      (by decide) (by decide) (by decide) (by decide) 1⟩

/-- C2: when `InstrumentPaths` returns true, on a function whose predecessor
lists name blocks of the function and whose target `T` is one of its blocks,
every block on a recorded path has gained exactly one coverage call, however
many paths hold it, and every other block of the module has gained none. -/
theorem one_call_per_path_block (M : Module) (f T E fuel : Nat) (M' : Module)
    (hrun : InstrumentPaths M f T E fuel = some (true, M'))
    (hwf : predsInFunction M f = true) (hT : (M.block? f T).isSome = true) :
    ∃ Paths, searchPaths (predecessors M f) T E fuel = some Paths ∧
      (∀ b, (∃ p ∈ Paths, b ∈ p) → coverageCalls M' f b = coverageCalls M f b + 1) ∧
      (∀ g b, ¬ (g = f ∧ ∃ p ∈ Paths, b ∈ p) →
        coverageCalls M' g b = coverageCalls M g b) := by
  obtain ⟨Paths, hs, -, -, hcount⟩ := InstrumentPaths_eq_some M f T E fuel true M' hrun
  refine ⟨Paths, hs, ?_, ?_⟩
  · rintro b ⟨p, hp, hb⟩
    have hw := ((searchPaths_mem _ T E fuel Paths hs p).1 hp).1
    have hv := isSome_block?_of_mem_walk M f hwf E T hT p hw b hb
    rw [hcount f b, if_pos ⟨rfl, hv, (mem_instrumentedBlocks M f Paths b).2 ⟨p, hp, hb⟩⟩]
  · intro g b hn
    rw [hcount g b, if_neg]
    · rfl
    · rintro ⟨hg, _, hb⟩
      exact hn ⟨hg, (mem_instrumentedBlocks M f Paths b).1 hb⟩

/-- C2, witness: the fan, whose blocks 0 and 6 are on five recorded paths. -/
theorem one_call_per_path_block_witness :
    InstrumentPaths fanModule 0 6 0 20 = some (true, fanModuleAfter) ∧
      predsInFunction fanModule 0 = true ∧
      (fanModule.block? 0 6).isSome = true ∧
      ∃ Paths, searchPaths (predecessors fanModule 0) 6 0 20 = some Paths ∧
        (∀ b, (∃ p ∈ Paths, b ∈ p) →
          coverageCalls fanModuleAfter 0 b = coverageCalls fanModule 0 b + 1) ∧
        (∀ g b, ¬ (g = 0 ∧ ∃ p ∈ Paths, b ∈ p) →
          coverageCalls fanModuleAfter g b = coverageCalls fanModule g b) :=
  ⟨by decide, by decide, by decide,
    one_call_per_path_block fanModule 0 6 0 20 fanModuleAfter (by decide) (by decide)
      (by decide)⟩

/-- C3: every path that the finished search has recorded is non-empty, starts
at the entry `E`, ends at the target `T` and goes from each block to a block
it is a predecessor of; when a path is recorded, `E` and `T` are both among
the instrumented blocks. -/
theorem recorded_paths_are_walks (M : Module) (f T E fuel : Nat) (Paths : List (List Nat))
    (hs : searchPaths (predecessors M f) T E fuel = some Paths) :
    (∀ p ∈ Paths, p ≠ [] ∧ p.head? = some E ∧ p.getLast? = some T ∧
        p.Chain' (fun a b => a ∈ predecessors M f b)) ∧
      (Paths ≠ [] → E ∈ instrumentedBlocks M f Paths ∧ T ∈ instrumentedBlocks M f Paths) := by
  have hall : ∀ p ∈ Paths, p ≠ [] ∧ p.head? = some E ∧ p.getLast? = some T ∧
      p.Chain' (fun a b => a ∈ predecessors M f b) := by
    intro p hp
    obtain ⟨⟨h1, h2, h3⟩, -⟩ := (searchPaths_mem _ T E fuel Paths hs p).1 hp
    refine ⟨?_, h1, h2, h3⟩
    rintro rfl
    simp at h1
  refine ⟨hall, fun hne => ?_⟩
  obtain ⟨p, hp⟩ := List.exists_mem_of_ne_nil Paths hne
  obtain ⟨-, h1, h2, -⟩ := hall p hp
  exact ⟨(mem_instrumentedBlocks M f Paths E).2 ⟨p, hp, List.mem_of_mem_head? h1⟩,
    (mem_instrumentedBlocks M f Paths T).2 ⟨p, hp, List.mem_of_mem_getLast? h2⟩⟩

/-- C3, witness: the diamond with its two recorded paths. -/
theorem recorded_paths_are_walks_witness :
    searchPaths (predecessors diamondModule 0) 3 0 10 = some [[0, 1, 3], [0, 2, 3]] ∧
      ((∀ p ∈ [[0, 1, 3], [0, 2, 3]], p ≠ [] ∧ p.head? = some 0 ∧ p.getLast? = some 3 ∧
          p.Chain' (fun a b => a ∈ predecessors diamondModule 0 b)) ∧
        ([[0, 1, 3], [0, 2, 3]] ≠ [] →
          0 ∈ instrumentedBlocks diamondModule 0 [[0, 1, 3], [0, 2, 3]] ∧
          3 ∈ instrumentedBlocks diamondModule 0 [[0, 1, 3], [0, 2, 3]])) :=
  ⟨by decide, recorded_paths_are_walks diamondModule 0 3 0 10 [[0, 1, 3], [0, 2, 3]]
    (by decide)⟩

/-- C4: when the search finishes, `InstrumentPaths` returns, and it returns
true exactly when a path was recorded; with no path recorded it returns false
and the module is the one it was given, with no call inserted and no function
declared. -/
theorem InstrumentPaths_true_iff_path_recorded (M : Module) (f T E fuel : Nat)
    (Paths : List (List Nat))
    (hs : searchPaths (predecessors M f) T E fuel = some Paths) :
    ∃ r M', InstrumentPaths M f T E fuel = some (r, M') ∧
      (r = true ↔ Paths ≠ []) ∧
      (Paths = [] → r = false ∧ M' = M) := by
  unfold InstrumentPaths
  rw [hs]
  cases Paths with
  | nil => exact ⟨false, M, by simp, by simp, fun _ => ⟨rfl, rfl⟩⟩
  | cons p rest => exact ⟨true, _, by simp; rfl, by simp, fun h => by simp at h⟩

/-- C4, witness: the dead target block of `deadTargetModule`, which records no
path. -/
theorem InstrumentPaths_true_iff_path_recorded_witness :
    searchPaths (predecessors deadTargetModule 0) 1 0 5 = some [] ∧
      ∃ r M', InstrumentPaths deadTargetModule 0 1 0 5 = some (r, M') ∧
        (r = true ↔ ([] : List (List Nat)) ≠ []) ∧
        (([] : List (List Nat)) = [] → r = false ∧ M' = deadTargetModule) :=
  ⟨by decide, InstrumentPaths_true_iff_path_recorded deadTargetModule 0 1 0 5 [] (by decide)⟩

theorem searchLoop_deadLoop (fuel : Nat) :
    ∀ k : Nat, searchLoop (predecessors deadLoopModule 0) 0 fuel [List.replicate k 1 ++ [1]] []
      = none := by
  induction fuel with
  | zero => intro k; rfl
  | succ fuel ih =>
    intro k
    have hp : predecessors deadLoopModule 0 1 = [1] := by decide
    have h := ih (k + 1)
    rw [List.replicate_succ'] at h
    simpa [searchLoop, hp] using h

theorem deadLoop_chain_all_target :
    ∀ w : List Nat, w.getLast? = some 1 →
      w.Chain' (fun a b => a ∈ predecessors deadLoopModule 0 b) → ∀ x ∈ w, x = 1 := by
  intro w
  induction w with
  | nil => intro _ _ x hx; simp at hx
  | cons a rest ih =>
    intro hlast hchain x hx
    cases rest with
    | nil =>
      simp at hlast hx
      omega
    | cons y rest =>
      rw [List.chain'_cons] at hchain
      have hy := ih (by simpa using hlast) hchain.2
      rcases List.mem_cons.1 hx with rfl | hx
      · have h1 := hchain.1
        rw [hy y (List.mem_cons_self _ _)] at h1
        have hp : predecessors deadLoopModule 0 1 = [1] := by decide
        rw [hp] at h1
        simpa using h1
      · exact hy x hx

theorem no_walk_of_no_preds (preds : Nat → List Nat) (E T : Nat) (hT : preds T = [])
    (hne : E ≠ T) (w : List Nat) : ¬ IsWalk preds E T w := by
  rintro ⟨hhead, hlast, hchain⟩
  cases w with
  | nil => simp at hhead
  | cons x rest =>
    cases rest with
    | nil =>
      simp at hhead hlast
      exact hne (hhead ▸ hlast)
    | cons y rest =>
      have hmem : T ∈ y :: rest := by
        apply List.mem_of_mem_getLast?
        simpa using hlast
      exact preds_ne_nil_of_mem_chain preds T x (y :: rest) hchain hmem hT

/-- C5, as stated, fails: in `deadLoopModule` no walk leads from the entry 0 to
the target 1, yet `InstrumentPaths` does not finish, whatever the fuel, and so
neither does `run`. -/
theorem deadLoop_search_never_finishes :
    (¬ ∃ w, IsWalk (predecessors deadLoopModule 0) 0 1 w) ∧
      (¬ ∃ fuel, InstrumentPaths deadLoopModule 0 1 0 fuel ≠ none) ∧
      (¬ ∃ fuel, run { SourceFileName := "a.cpp", TargetLine := 10 } deadLoopModule fuel
        ≠ RunResult.outOfFuel) := by
  have hnone : ∀ fuel, InstrumentPaths deadLoopModule 0 1 0 fuel = none := by
    intro fuel
    have h := searchLoop_deadLoop fuel 0
    simp only [List.replicate_zero, List.nil_append] at h
    simp [InstrumentPaths, searchPaths, h]
  refine ⟨?_, ?_, ?_⟩
  · rintro ⟨w, hw⟩
    have hall := deadLoop_chain_all_target w hw.2.1 hw.2.2
    cases w with
    | nil => exact absurd hw.1 (by simp)
    | cons x rest =>
      have h1 := hall x (List.mem_cons_self _ _)
      have h2 := hw.1
      simp at h2
      omega
  · rintro ⟨fuel, h⟩
    exact h (hnone fuel)
  · rintro ⟨fuel, h⟩
    apply h
    have hF : FindTargetBlock (mkFunction "this_function"
        [mkBlock [] none [], mkBlock [1] (some 10) [1]]) 10 = some 1 := by decide
    have hsrc : deadLoopModule.sourceFileName = "a.cpp" := rfl
    simp [run, hsrc, deadLoopModule, castConstantArray, runLoop, castConstantStruct,
      castFunction, hF]
    have := hnone fuel
    simp only [deadLoopModule] at this
    rw [this]

/-- C5 (amended): when no walk leads from the entry `E` to the target `T` and
the search finishes within the fuel, it has recorded no path, `InstrumentPaths`
returns false with the module as given, and `run`, on reaching an annotated
function `f` with target block `T` and entry `E = 0`, reports the module
unchanged. -/
theorem no_walk_returns_false (M : Module) (f T E fuel : Nat)
    (hno : ∀ w, ¬ IsWalk (predecessors M f) E T w)
    (hterm : (searchPaths (predecessors M f) T E fuel).isSome = true) :
    searchPaths (predecessors M f) T E fuel = some [] ∧
      InstrumentPaths M f T E fuel = some (false, M) ∧
      (∀ (P : TrackPathsPass) (F : Function) (rest : List AnnotationElement),
        E = 0 → M.functions[f]? = some F → FindTargetBlock F P.TargetLine = some T →
        runLoop P M fuel (AnnotationElement.constantStruct (AnnotatedValue.function f) :: rest)
          = RunResult.done PreservedAnalyses.all M) := by
  obtain ⟨Paths, hs⟩ := Option.isSome_iff_exists.1 hterm
  have hnil : Paths = [] := by
    cases Paths with
    | nil => rfl
    | cons p rest =>
      exact absurd ((searchPaths_mem _ T E fuel _ hs p).1 (List.mem_cons_self _ _)).1 (hno p)
  subst hnil
  have hI : InstrumentPaths M f T E fuel = some (false, M) := by
    simp [InstrumentPaths, hs]
  refine ⟨hs, hI, ?_⟩
  intro P F rest hE hF hfind
  subst hE
  simp [runLoop, castConstantStruct, castFunction, hF, hfind, hI]

/-- C5, witness: the dead target block of `deadTargetModule`. -/
theorem no_walk_returns_false_witness :
    (∀ w, ¬ IsWalk (predecessors deadTargetModule 0) 0 1 w) ∧
      (searchPaths (predecessors deadTargetModule 0) 1 0 5).isSome = true ∧
      (searchPaths (predecessors deadTargetModule 0) 1 0 5 = some [] ∧
        InstrumentPaths deadTargetModule 0 1 0 5 = some (false, deadTargetModule) ∧
        (∀ (P : TrackPathsPass) (F : Function) (rest : List AnnotationElement),
          0 = 0 → deadTargetModule.functions[0]? = some F →
          FindTargetBlock F P.TargetLine = some 1 →
          runLoop P deadTargetModule 5
            (AnnotationElement.constantStruct (AnnotatedValue.function 0) :: rest)
            = RunResult.done PreservedAnalyses.all deadTargetModule)) :=
  ⟨no_walk_of_no_preds _ 0 1 (by decide) (by decide), by decide,
    no_walk_returns_false deadTargetModule 0 1 0 5
      (no_walk_of_no_preds _ 0 1 (by decide) (by decide)) (by decide)⟩

/-! ## FindTargetBlock -/

theorem blockHasLine_iff (L : Nat) (insts : List Instruction) :
    blockHasLine L insts = true ↔ ∃ I ∈ insts, I.debugLoc = some L := by
  induction insts with
  | nil => simp [blockHasLine]
  | cons I rest ih =>
    unfold blockHasLine
    cases hd : I.debugLoc with
    | none => simp [hd, ih]
    | some line =>
      by_cases hl : line = L
      · simp [hd, hl]
      · simp [hd, hl, ih]

theorem findTargetFrom_eq_none (L : Nat) (blocks : List BasicBlock) :
    ∀ idx, findTargetFrom L blocks idx = none ↔
      ∀ B ∈ blocks, blockHasLine L B.insts = false := by
  induction blocks with
  | nil => intro idx; simp [findTargetFrom]
  | cons B rest ih =>
    intro idx
    unfold findTargetFrom
    by_cases hB : blockHasLine L B.insts = true
    · simp [hB]
    · simp [hB, ih]

theorem findTargetFrom_eq_some (L : Nat) (blocks : List BasicBlock) :
    ∀ idx i, findTargetFrom L blocks idx = some i ↔
      ∃ k B, i = idx + k ∧ blocks[k]? = some B ∧ blockHasLine L B.insts = true ∧
        ∀ j < k, ∀ B', blocks[j]? = some B' → blockHasLine L B'.insts = false := by
  induction blocks with
  | nil => intro idx i; simp [findTargetFrom]
  | cons B rest ih =>
    intro idx i
    unfold findTargetFrom
    by_cases hB : blockHasLine L B.insts = true
    · rw [if_pos hB]
      constructor
      · intro h
        refine ⟨0, B, ?_, by simp, hB, fun j hj => absurd hj (Nat.not_lt_zero j)⟩
        simpa using (Option.some.inj h).symm
      · rintro ⟨k, B', hi, hk, hB', hbefore⟩
        cases k with
        | zero => simp [hi]
        | succ k =>
          have := hbefore 0 (Nat.succ_pos k) B (by simp)
          rw [hB] at this
          exact absurd this (by simp)
    · rw [if_neg hB, ih]
      have hBf : blockHasLine L B.insts = false := by simpa using hB
      constructor
      · rintro ⟨k, B', hi, hk, hB', hbefore⟩
        refine ⟨k + 1, B', by omega, by simpa using hk, hB', ?_⟩
        intro j hj B'' hj'
        cases j with
        | zero =>
          simp at hj'
          subst hj'
          exact hBf
        | succ j => exact hbefore j (by omega) B'' (by simpa using hj')
      · rintro ⟨k, B', hi, hk, hB', hbefore⟩
        cases k with
        | zero =>
          simp at hk
          subst hk
          rw [hBf] at hB'
          exact absurd hB' (by simp)
        | succ k =>
          refine ⟨k, B', by omega, by simpa using hk, hB', ?_⟩
          intro j hj B'' hj'
          exact hbefore (j + 1) (by omega) B'' (by simpa using hj')

/-- C6: `FindTargetBlock` returns null exactly when no instruction of the
function has a debug location of line `L`; it returns a block exactly when
that block holds an instruction with a debug location of line `L` and no
earlier block of the function does. -/
theorem FindTargetBlock_first_match (F : Function) (L : Nat) :
    (FindTargetBlock F L = none ↔ ∀ B ∈ F.blocks, ∀ I ∈ B.insts, I.debugLoc ≠ some L) ∧
      (∀ i, FindTargetBlock F L = some i ↔
        ∃ B, F.blocks[i]? = some B ∧ (∃ I ∈ B.insts, I.debugLoc = some L) ∧
          ∀ j < i, ∀ B', F.blocks[j]? = some B' → ∀ I ∈ B'.insts, I.debugLoc ≠ some L) := by
  have hfalse : ∀ B : BasicBlock, blockHasLine L B.insts = false ↔
      ∀ I ∈ B.insts, I.debugLoc ≠ some L := by
    intro B
    rw [← Bool.not_eq_true, blockHasLine_iff]
    simp
  constructor
  · unfold FindTargetBlock
    rw [findTargetFrom_eq_none]
    exact forall₂_congr (fun B _ => hfalse B)
  · intro i
    unfold FindTargetBlock
    rw [findTargetFrom_eq_some]
    constructor
    · rintro ⟨k, B, hi, hk, hB, hbefore⟩
      have hik : i = k := by omega
      subst hik
      exact ⟨B, hk, (blockHasLine_iff L B.insts).1 hB,
        fun j hj B' hj' => (hfalse B').1 (hbefore j hj B' hj')⟩
    · rintro ⟨B, hk, hB, hbefore⟩
      exact ⟨i, B, by omega, hk, (blockHasLine_iff L B.insts).2 hB,
        fun j hj B' hj' => (hfalse B').2 (hbefore j hj B' hj')⟩

/-! ## TrackPathsPass::run -/

theorem runLoop_skip (P : TrackPathsPass) (M : Module) (fuel : Nat)
    (rest : List AnnotationElement) :
    ∀ pre : List Nat,
      (∀ g ∈ pre, g < M.functions.length) →
      (∀ g ∈ pre, ∀ G, M.functions[g]? = some G → FindTargetBlock G P.TargetLine = none) →
      runLoop P M fuel
          (pre.map (fun f => AnnotationElement.constantStruct (AnnotatedValue.function f)) ++ rest)
        = runLoop P M fuel rest := by
  intro pre
  induction pre with
  | nil => intro _ _; rfl
  | cons g pre ih =>
    intro hlt hno
    have hg : g < M.functions.length := hlt g (List.mem_cons_self _ _)
    have hG : M.functions[g]? = some M.functions[g] := List.getElem?_eq_getElem hg
    have hfind := hno g (List.mem_cons_self _ _) _ hG
    simp only [List.map_cons, List.cons_append]
    rw [runLoop]
    simp only [castConstantStruct, castFunction, hG, Option.map_some', hfind]
    exact ih (fun x hx => hlt x (List.mem_cons_of_mem _ hx))
      (fun x hx => hno x (List.mem_cons_of_mem _ hx))

theorem InstrumentPaths_false_unchanged (M : Module) (f T E fuel : Nat) (M' : Module)
    (h : InstrumentPaths M f T E fuel = some (false, M')) : M' = M := by
  obtain ⟨Paths, -, hr, hM, -⟩ := InstrumentPaths_eq_some M f T E fuel false M' h
  apply hM
  cases Paths with
  | nil => rfl
  | cons p rest => simp at hr

/-- C7 (amended): on a module whose source file name matches and whose
annotation table is well formed, `run` goes through the annotated functions in
table order up to the first one in which `FindTargetBlock` finds a block.
With no such function it reports the module unchanged. Otherwise it calls
`InstrumentPaths` on that function alone and reports the module transformed
exactly when that call returns true; when the call returns false, `run`
reports the module unchanged without trying the functions further down. -/
theorem run_stops_at_first_target (P : TrackPathsPass) (M : Module) (fuel : Nat)
    (fs : List Nat) (hname : M.sourceFileName = P.SourceFileName)
    (hann : M.annotations = some (annotationTable fs))
    (hfs : ∀ f ∈ fs, f < M.functions.length) :
    ((∀ f ∈ fs, ∀ F, M.functions[f]? = some F → FindTargetBlock F P.TargetLine = none) →
        run P M fuel = RunResult.done PreservedAnalyses.all M) ∧
      (∀ (pre post : List Nat) (f : Nat) (F : Function) (T : Nat),
        fs = pre ++ f :: post →
        (∀ g ∈ pre, ∀ G, M.functions[g]? = some G → FindTargetBlock G P.TargetLine = none) →
        M.functions[f]? = some F → FindTargetBlock F P.TargetLine = some T →
        run P M fuel =
          match InstrumentPaths M f T 0 fuel with
          | none => RunResult.outOfFuel
          | some (true, M') => RunResult.done PreservedAnalyses.none M'
          | some (false, _) => RunResult.done PreservedAnalyses.all M) := by
  have hrun : run P M fuel = runLoop P M fuel
      (fs.map (fun f => AnnotationElement.constantStruct (AnnotatedValue.function f))) := by
    simp [run, hname, hann, annotationTable, castConstantArray]
  rw [hrun]
  constructor
  · intro hno
    have h := runLoop_skip P M fuel [] fs hfs hno
    rw [List.append_nil] at h
    rw [h]
    rfl
  · intro pre post f F T hsplit hno hF hfind
    subst hsplit
    have hpre : ∀ g ∈ pre, g < M.functions.length :=
      fun g hg => hfs g (List.mem_append_left _ hg)
    rw [List.map_append, runLoop_skip P M fuel _ pre hpre hno]
    simp only [List.map_cons]
    rw [runLoop]
    simp only [castConstantStruct, castFunction, hF, Option.map_some', hfind]
    cases hI : InstrumentPaths M f T 0 fuel with
    | none => rfl
    | some res =>
      obtain ⟨r, M'⟩ := res
      cases r with
      | true => rfl
      | false =>
        have := InstrumentPaths_false_unchanged M f T 0 fuel M' hI
        subst this
        rfl

/-- C7, witness: `twoAnnotatedModule`, whose first annotated function holds
the target line in a dead block. -/
theorem run_stops_at_first_target_witness :
    twoAnnotatedModule.sourceFileName = passLine10.SourceFileName ∧
      twoAnnotatedModule.annotations = some (annotationTable [0, 1]) ∧
      (∀ f ∈ [0, 1], f < twoAnnotatedModule.functions.length) ∧
      (((∀ f ∈ [0, 1], ∀ F, twoAnnotatedModule.functions[f]? = some F →
            FindTargetBlock F passLine10.TargetLine = none) →
          run passLine10 twoAnnotatedModule 5
            = RunResult.done PreservedAnalyses.all twoAnnotatedModule) ∧
        (∀ (pre post : List Nat) (f : Nat) (F : Function) (T : Nat),
          [0, 1] = pre ++ f :: post →
          (∀ g ∈ pre, ∀ G, twoAnnotatedModule.functions[g]? = some G →
            FindTargetBlock G passLine10.TargetLine = none) →
          twoAnnotatedModule.functions[f]? = some F →
          FindTargetBlock F passLine10.TargetLine = some T →
          run passLine10 twoAnnotatedModule 5 =
            match InstrumentPaths twoAnnotatedModule f T 0 5 with
            | none => RunResult.outOfFuel
            | some (true, M') => RunResult.done PreservedAnalyses.none M'
            | some (false, _) => RunResult.done PreservedAnalyses.all twoAnnotatedModule)) :=
  ⟨by decide, by decide, by decide,
    run_stops_at_first_target passLine10 twoAnnotatedModule 5 [0, 1] (by decide) (by decide)
      (by decide)⟩

/-- C7, as stated, fails: in `twoAnnotatedModule` the second annotated function
has a target block for line 10 on which `InstrumentPaths` returns true, but
the first one has a target block on which it returns false, and `run` reports
the module unchanged, the second function untouched. -/
theorem twoAnnotated_later_function_not_tried :
    twoAnnotatedModule.sourceFileName = passLine10.SourceFileName ∧
      twoAnnotatedModule.annotations = some (annotationTable [0, 1]) ∧
      FindTargetBlock (mkFunction "first" [mkBlock [] none [], mkBlock [] (some 10) []])
        passLine10.TargetLine = some 1 ∧
      InstrumentPaths twoAnnotatedModule 0 1 0 5 = some (false, twoAnnotatedModule) ∧
      FindTargetBlock (mkFunction "second" [mkBlock [] (some 10) []])
        passLine10.TargetLine = some 0 ∧
      InstrumentPaths twoAnnotatedModule 1 0 0 5 = some (true, twoAnnotatedModuleAfter) ∧
      run passLine10 twoAnnotatedModule 5
        = RunResult.done PreservedAnalyses.all twoAnnotatedModule := by
  decide

/-- C8: on a module whose source file name differs from the configured one,
`run` reports all analyses preserved and returns the module as given,
whatever its annotation table and functions are. -/
theorem run_other_source_file_unchanged (P : TrackPathsPass) (M : Module) (fuel : Nat)
    (hname : M.sourceFileName ≠ P.SourceFileName) :
    run P M fuel = RunResult.done PreservedAnalyses.all M := by
  simp [run, hname]

/-- C8, witness: the diamond under a pass configured for `b.cpp`. -/
theorem run_other_source_file_unchanged_witness :
    diamondModule.sourceFileName ≠ "b.cpp" ∧
      run { SourceFileName := "b.cpp", TargetLine := 10 } diamondModule 10
        = RunResult.done PreservedAnalyses.all diamondModule :=
  ⟨by decide, run_other_source_file_unchanged { SourceFileName := "b.cpp", TargetLine := 10 }
    diamondModule 10 (by decide)⟩

/-- C9, the code at the failing input: the first entry of the table of
`annotatedGlobalModule` annotates a global variable, the second a function
that holds line 10; `cast<Function>` fails on the first entry and `run` never
reaches the second, whatever the fuel. -/
theorem run_annotated_global_cast_failure (fuel : Nat) :
    run passLine10 annotatedGlobalModule fuel = RunResult.castFailure := by
  rfl

/-- C10, the code at the failing inputs: with an initializer that is not a
constant array, or an array element that is not a constant struct, `run` ends
in the failure of a `cast`, whatever the fuel; the absent table alone is
taken as empty. -/
theorem run_malformed_table_cast_failure (fuel : Nat) :
    run passLine10 notArrayModule fuel = RunResult.castFailure ∧
      run passLine10 notStructModule fuel = RunResult.castFailure ∧
      run passLine10 noTableModule fuel = RunResult.done PreservedAnalyses.all noTableModule :=
  ⟨rfl, rfl, rfl⟩

/-! ## What the instrumentation changes -/

theorem block?_applyCalls (f : Nat) (blocks : List Nat) :
    ∀ (M : Module), blocks.Nodup → ∀ (g c : Nat),
      (applyCalls f blocks M).block? g c =
        if g = f ∧ c ∈ blocks then
          (M.block? f c).map (fun B => B.insertAt (getFirstInsertionPt B)
            (coverageCall c (insertionDebugLoc B)))
        else M.block? g c := by
  induction blocks with
  | nil => intro M _ g c; simp [applyCalls]
  | cons b rest ih =>
    intro M hnd g c
    obtain ⟨hb, hrest⟩ := List.nodup_cons.1 hnd
    show (applyCalls f rest (CreateCall M f b coverageName (GetBasicBlockID b))).block? g c = _
    rw [ih _ hrest, block?_CreateCall, block?_CreateCall]
    by_cases hg : g = f
    · subst hg
      by_cases hc : c ∈ rest
      · have hcb : c ≠ b := fun h => hb (h ▸ hc)
        simp [hc, hcb]
      · by_cases hcb : c = b
        · subst hcb
          simp [hc, coverageCall]
        · simp [hc, hcb]
    · simp [hg]

/-- The blocks of the module after `InstrumentPaths`: a block marked in
`Instrumented` is the block of before with its coverage call inserted at the
first insertion point, and every other block is the block of before. -/
theorem block?_InstrumentPaths (M : Module) (f T E fuel : Nat) (r : Bool) (M' : Module)
    (hrun : InstrumentPaths M f T E fuel = some (r, M')) :
    ∃ Paths, searchPaths (predecessors M f) T E fuel = some Paths ∧
      r = !Paths.isEmpty ∧
      ∀ g c, M'.block? g c =
        if g = f ∧ c ∈ instrumentedBlocks M f Paths then
          (M.block? f c).map (fun B => B.insertAt (getFirstInsertionPt B)
            (coverageCall c (insertionDebugLoc B)))
        else M.block? g c := by
  unfold InstrumentPaths at hrun
  cases hs : searchPaths (predecessors M f) T E fuel with
  | none => rw [hs] at hrun; simp at hrun
  | some Paths =>
    rw [hs] at hrun
    refine ⟨Paths, rfl, ?_⟩
    cases Paths with
    | nil =>
      simp at hrun
      obtain ⟨rfl, rfl⟩ := hrun
      refine ⟨rfl, fun g c => ?_⟩
      simp [instrumentedBlocks, instrumentLoop]
    | cons p rest =>
      simp at hrun
      obtain ⟨rfl, rfl⟩ := hrun
      refine ⟨rfl, fun g c => ?_⟩
      obtain ⟨h1, h2, _⟩ := instrumentLoop_inv f
        (getOrInsertFunction M coverageName coverageType) (p :: rest)
        { Instrumented := [], M := getOrInsertFunction M coverageName coverageType }
        ⟨List.nodup_nil, rfl⟩
      rw [h2, block?_applyCalls f _ _ h1, block?_getOrInsertFunction,
        block?_getOrInsertFunction]
      rfl

theorem predecessors_InstrumentPaths (M : Module) (f T E fuel : Nat) (r : Bool) (M' : Module)
    (hrun : InstrumentPaths M f T E fuel = some (r, M')) (g c : Nat) :
    predecessors M' g c = predecessors M g c := by
  obtain ⟨Paths, -, -, hb⟩ := block?_InstrumentPaths M f T E fuel r M' hrun
  unfold predecessors
  rw [hb g c]
  by_cases h : g = f ∧ c ∈ instrumentedBlocks M f Paths
  · rw [if_pos h]
    obtain ⟨rfl, -⟩ := h
    cases M.block? g c <;> rfl
  · rw [if_neg h]

theorem take_length_takeWhile {α : Type} (p : α → Bool) (l : List α) :
    l.take (l.takeWhile p).length = l.takeWhile p := by
  induction l with
  | nil => rfl
  | cons x rest ih =>
    by_cases hx : p x = true
    · simp [List.takeWhile_cons, hx, ih]
    · simp [List.takeWhile_cons, hx]

theorem drop_length_takeWhile {α : Type} (p : α → Bool) (l : List α) :
    l.drop (l.takeWhile p).length = l.dropWhile p := by
  induction l with
  | nil => rfl
  | cons x rest ih =>
    by_cases hx : p x = true
    · simp [List.takeWhile_cons, List.dropWhile_cons, hx, ih]
    · simp [List.takeWhile_cons, List.dropWhile_cons, hx]

/-- The instruction list after an insertion at the first insertion point:
the leading setup instructions, the new instruction, the other
instructions. -/
theorem insts_insertAt_firstInsertionPt (B : BasicBlock) (I : Instruction) :
    (B.insertAt (getFirstInsertionPt B) I).insts =
      B.insts.takeWhile Instruction.isSetup ++ I :: B.insts.dropWhile Instruction.isSetup := by
  unfold BasicBlock.insertAt getFirstInsertionPt
  simp only [take_length_takeWhile, drop_length_takeWhile]

theorem successors_insertAt_coverageCall (B : BasicBlock) (c : Nat) (dl : Option Nat) :
    (B.insertAt (getFirstInsertionPt B) (coverageCall c dl)).successors = B.successors := by
  unfold BasicBlock.successors
  rw [insts_insertAt_firstInsertionPt]
  have hsplit := List.takeWhile_append_dropWhile Instruction.isSetup B.insts
  rw [List.getLast?_append_of_ne_nil _ (List.cons_ne_nil _ _)]
  cases hd : B.insts.dropWhile Instruction.isSetup with
  | nil =>
    rw [hd, List.append_nil] at hsplit
    cases hl : B.insts.getLast? with
    | none => rfl
    | some I =>
      have hm := List.mem_of_mem_getLast? hl
      rw [← hsplit] at hm
      have hI := List.mem_takeWhile_imp hm
      unfold Instruction.isSetup at hI
      cases hk : I.kind <;> simp [hk, coverageCall] at hI ⊢
  | cons x rest =>
    rw [hd] at hsplit
    have h2 : B.insts.getLast? = (x :: rest).getLast? := by
      rw [← hsplit]
      exact List.getLast?_append_of_ne_nil _ (List.cons_ne_nil _ _)
    rw [h2, List.getLast?_cons_cons]

theorem successors_InstrumentPaths (M : Module) (f T E fuel : Nat) (r : Bool) (M' : Module)
    (hrun : InstrumentPaths M f T E fuel = some (r, M')) (g c : Nat) :
    successors M' g c = successors M g c := by
  obtain ⟨Paths, -, -, hb⟩ := block?_InstrumentPaths M f T E fuel r M' hrun
  unfold successors
  rw [hb g c]
  by_cases h : g = f ∧ c ∈ instrumentedBlocks M f Paths
  · rw [if_pos h]
    obtain ⟨rfl, -⟩ := h
    cases M.block? g c with
    | none => rfl
    | some B => exact successors_insertAt_coverageCall B c _
  · rw [if_neg h]

theorem signatures_CreateCall (M : Module) (f BB : Nat) (callee : String) (arg : Nat) :
    signatures (CreateCall M f BB callee arg) = signatures M := by
  unfold signatures CreateCall
  apply List.ext_getElem?
  intro n
  simp only [List.getElem?_map, List.getElem?_modify]
  cases M.functions[n]? with
  | none => rfl
  | some F => by_cases h : f = n <;> simp [h]

theorem signatures_applyCalls (f : Nat) (blocks : List Nat) :
    ∀ M : Module, signatures (applyCalls f blocks M) = signatures M := by
  induction blocks with
  | nil => intro M; rfl
  | cons b rest ih =>
    intro M
    show signatures (applyCalls f rest (CreateCall M f b coverageName (GetBasicBlockID b))) = _
    rw [ih, signatures_CreateCall]

theorem recorderDecls_eq_signatures (M : Module) :
    recorderDecls M = (signatures M).countP (fun s => s.1 == coverageName) := by
  unfold recorderDecls signatures
  rw [List.countP_map]
  rfl

theorem mem_signatures_iff (M : Module) (ty : FunctionType) :
    (∀ F ∈ M.functions, F.name = coverageName → F.ty = ty) ↔
      ∀ s ∈ signatures M, s.1 = coverageName → s.2 = ty := by
  unfold signatures
  constructor
  · intro h s hs
    obtain ⟨F, hF, rfl⟩ := List.mem_map.1 hs
    exact h F hF
  · intro h F hF
    exact h (F.name, F.ty) (List.mem_map.2 ⟨F, hF, rfl⟩)

theorem recorderDecls_getOrInsertFunction (M : Module) (ty : FunctionType)
    (huniq : recorderDecls M ≤ 1) :
    recorderDecls (getOrInsertFunction M coverageName ty) = 1 := by
  unfold getOrInsertFunction
  by_cases hany : M.functions.any (fun F => F.name == coverageName) = true
  · rw [if_pos hany]
    have hpos : 0 < recorderDecls M := by
      unfold recorderDecls
      rw [List.countP_pos_iff]
      simpa using hany
    omega
  · rw [if_neg hany]
    have hzero : recorderDecls M = 0 := by
      unfold recorderDecls
      rw [List.countP_eq_zero]
      simpa using hany
    unfold recorderDecls at hzero ⊢
    simp [List.countP_append, hzero]

theorem type_getOrInsertFunction (M : Module)
    (hsig : ∀ F ∈ M.functions, F.name = coverageName → F.ty = coverageType) :
    ∀ F ∈ (getOrInsertFunction M coverageName coverageType).functions,
      F.name = coverageName → F.ty = coverageType := by
  unfold getOrInsertFunction
  split
  · exact hsig
  · intro F hF hname
    rcases List.mem_append.1 hF with hF | hF
    · exact hsig F hF hname
    · rw [List.mem_singleton] at hF
      rw [hF]

/-- The module after a run of `InstrumentPaths` that has recorded paths: the
module with the recorder obtained, then one call created per marked block. -/
theorem InstrumentPaths_eq_applyCalls (M : Module) (f T E fuel : Nat) (M' : Module)
    (hrun : InstrumentPaths M f T E fuel = some (true, M')) :
    ∃ Paths, searchPaths (predecessors M f) T E fuel = some Paths ∧ Paths ≠ [] ∧
      M' = applyCalls f (instrumentedBlocks M f Paths)
        (getOrInsertFunction M coverageName coverageType) := by
  unfold InstrumentPaths at hrun
  cases hs : searchPaths (predecessors M f) T E fuel with
  | none => rw [hs] at hrun; simp at hrun
  | some Paths =>
    rw [hs] at hrun
    refine ⟨Paths, rfl, ?_⟩
    cases Paths with
    | nil => simp at hrun
    | cons p rest =>
      simp at hrun
      subst hrun
      refine ⟨by simp, ?_⟩
      exact (instrumentLoop_inv f (getOrInsertFunction M coverageName coverageType) (p :: rest)
        { Instrumented := [], M := getOrInsertFunction M coverageName coverageType }
        ⟨List.nodup_nil, rfl⟩).2.1

theorem signatures_getOrInsertFunction (M : Module) (ty : FunctionType) :
    signatures (getOrInsertFunction M coverageName ty) =
      if recorderDecls M = 0 then signatures M ++ [(coverageName, ty)] else signatures M := by
  unfold getOrInsertFunction
  by_cases hany : M.functions.any (fun F => F.name == coverageName) = true
  · rw [if_pos hany]
    have hpos : 0 < recorderDecls M := by
      unfold recorderDecls
      rw [List.countP_pos_iff]
      simpa using hany
    rw [if_neg (by omega)]
  · rw [if_neg hany]
    have hzero : recorderDecls M = 0 := by
      unfold recorderDecls
      rw [List.countP_eq_zero]
      simpa using hany
    rw [if_pos hzero]
    simp [signatures]

/-- C11 (amended): after a run of `InstrumentPaths` that returns true, on a
module with at most one function of the recorder's name, the module has
exactly one function named `___optmuzz_coverage`. When the name was not
declared before, it is the declaration of type `void (i64)` that the run adds
at the end; when it was, the functions keep their names and types, so that
the recorder has type `void (i64)` if it had it before. The recorder is in
the module before the first call is created, and every call created in a
marked block is a call of that name. -/
theorem one_recorder_declaration (M : Module) (f T E fuel : Nat) (M' : Module)
    (hrun : InstrumentPaths M f T E fuel = some (true, M'))
    (huniq : recorderDecls M ≤ 1) :
    recorderDecls M' = 1 ∧
      signatures M' =
        (if recorderDecls M = 0 then signatures M ++ [(coverageName, coverageType)]
          else signatures M) ∧
      ((∀ F ∈ M.functions, F.name = coverageName → F.ty = coverageType) →
        ∀ F ∈ M'.functions, F.name = coverageName → F.ty = coverageType) ∧
      ∃ Paths, searchPaths (predecessors M f) T E fuel = some Paths ∧
        recorderDecls (getOrInsertFunction M coverageName coverageType) = 1 ∧
        M' = applyCalls f (instrumentedBlocks M f Paths)
          (getOrInsertFunction M coverageName coverageType) ∧
        ∀ c ∈ instrumentedBlocks M f Paths,
          M'.block? f c = (M.block? f c).map (fun B => B.insertAt (getFirstInsertionPt B)
            { kind := InstKind.call coverageName (GetBasicBlockID c),
              debugLoc := insertionDebugLoc B }) := by
  obtain ⟨Paths, hs, -, hM'⟩ := InstrumentPaths_eq_applyCalls M f T E fuel M' hrun
  have hsigs : signatures M' = signatures (getOrInsertFunction M coverageName coverageType) := by
    rw [hM', signatures_applyCalls]
  have h1 := recorderDecls_getOrInsertFunction M coverageType huniq
  refine ⟨?_, ?_, ?_, Paths, hs, h1, hM', ?_⟩
  · rw [recorderDecls_eq_signatures, hsigs, ← recorderDecls_eq_signatures, h1]
  · rw [hsigs, signatures_getOrInsertFunction]
  · intro hsig
    rw [mem_signatures_iff, hsigs, ← mem_signatures_iff]
    exact type_getOrInsertFunction M hsig
  · intro c hc
    obtain ⟨Paths', hs', -, hb⟩ := block?_InstrumentPaths M f T E fuel true M' hrun
    rw [hs] at hs'
    obtain rfl := Option.some.inj hs'
    rw [hb f c, if_pos ⟨rfl, hc⟩]
    rfl

/-- C11, witness: the diamond with the recorder declared beforehand. -/
theorem one_recorder_declaration_witness :
    InstrumentPaths declaredModule 1 3 0 10 = some (true, declaredModuleAfter) ∧
      recorderDecls declaredModule ≤ 1 ∧
      (recorderDecls declaredModuleAfter = 1 ∧
        signatures declaredModuleAfter =
          (if recorderDecls declaredModule = 0 then
            signatures declaredModule ++ [(coverageName, coverageType)]
          else signatures declaredModule) ∧
        ((∀ F ∈ declaredModule.functions, F.name = coverageName → F.ty = coverageType) →
          ∀ F ∈ declaredModuleAfter.functions, F.name = coverageName → F.ty = coverageType) ∧
        ∃ Paths, searchPaths (predecessors declaredModule 1) 3 0 10 = some Paths ∧
          recorderDecls (getOrInsertFunction declaredModule coverageName coverageType) = 1 ∧
          declaredModuleAfter = applyCalls 1 (instrumentedBlocks declaredModule 1 Paths)
            (getOrInsertFunction declaredModule coverageName coverageType) ∧
          ∀ c ∈ instrumentedBlocks declaredModule 1 Paths,
            declaredModuleAfter.block? 1 c =
              (declaredModule.block? 1 c).map (fun B => B.insertAt (getFirstInsertionPt B)
                { kind := InstKind.call coverageName (GetBasicBlockID c),
                  debugLoc := insertionDebugLoc B })) :=
  ⟨by decide, by decide,
    one_recorder_declaration declaredModule 1 3 0 10 declaredModuleAfter (by decide)
      (by decide)⟩

/-- C11, as stated, fails: in `otherTypeModule` the name of the recorder is
declared beforehand with the type `other ()`; the run returns true and leaves
that one declaration, whose type is not `void (i64)`. -/
theorem otherType_declaration_keeps_type :
    InstrumentPaths otherTypeModule 1 0 0 5 = some (true, otherTypeModuleAfter) ∧
      recorderDecls otherTypeModule ≤ 1 ∧
      recorderDecls otherTypeModuleAfter = 1 ∧
      ¬ (∀ F ∈ otherTypeModuleAfter.functions, F.name = coverageName →
          F.ty = coverageType) := by
  refine ⟨by decide, by decide, by decide, fun h => ?_⟩
  have h1 := h { name := coverageName, ty := { ret := Ty.other, params := [] }, blocks := [] }
    (by simp [otherTypeModuleAfter]) rfl
  revert h1
  decide

/-- C15: every call that `InstrumentPaths` creates in a marked block `c` is the
call of the coverage recorder with the one argument `GetBasicBlockID c`, put
between the leading setup instructions and the other instructions of `c`; and
`GetBasicBlockID` gives distinct blocks distinct values. -/
theorem call_argument_is_block_id (M : Module) (f T E fuel : Nat) (r : Bool) (M' : Module)
    (hrun : InstrumentPaths M f T E fuel = some (r, M')) :
    ∃ Paths, searchPaths (predecessors M f) T E fuel = some Paths ∧
      (∀ c ∈ instrumentedBlocks M f Paths, ∀ B, M.block? f c = some B →
        ∃ B', M'.block? f c = some B' ∧
          B'.insts = B.insts.takeWhile Instruction.isSetup ++
            { kind := InstKind.call coverageName (GetBasicBlockID c),
              debugLoc := insertionDebugLoc B } ::
              B.insts.dropWhile Instruction.isSetup) ∧
      (∀ b b', b ≠ b' → GetBasicBlockID b ≠ GetBasicBlockID b') := by
  obtain ⟨Paths, hs, -, hb⟩ := block?_InstrumentPaths M f T E fuel r M' hrun
  refine ⟨Paths, hs, ?_, fun b b' h => h⟩
  intro c hc B hB
  refine ⟨B.insertAt (getFirstInsertionPt B) (coverageCall c (insertionDebugLoc B)), ?_, ?_⟩
  · rw [hb f c, if_pos ⟨rfl, hc⟩, hB]
    rfl
  · rw [insts_insertAt_firstInsertionPt]
    rfl

/-- C15, witness: the fan. -/
theorem call_argument_is_block_id_witness :
    InstrumentPaths fanModule 0 6 0 20 = some (true, fanModuleAfter) ∧
      ∃ Paths, searchPaths (predecessors fanModule 0) 6 0 20 = some Paths ∧
        (∀ c ∈ instrumentedBlocks fanModule 0 Paths, ∀ B, fanModule.block? 0 c = some B →
          ∃ B', fanModuleAfter.block? 0 c = some B' ∧
            B'.insts = B.insts.takeWhile Instruction.isSetup ++
              { kind := InstKind.call coverageName (GetBasicBlockID c),
                debugLoc := insertionDebugLoc B } ::
                B.insts.dropWhile Instruction.isSetup) ∧
        (∀ b b', b ≠ b' → GetBasicBlockID b ≠ GetBasicBlockID b') :=
  ⟨by decide, call_argument_is_block_id fanModule 0 6 0 20 true fanModuleAfter (by decide)⟩

/-- C16: `InstrumentPaths` changes blocks by insertion only. In a marked block
the new call stands at the first insertion point, after the leading setup
instructions and before the first other instruction; taking the call out
gives back the instruction list of before; the use list of the block is
kept. A block that is not marked is kept as it is, and the predecessors and
the successors of every block are those of before. -/
theorem only_insertion_at_first_insertion_point (M : Module) (f T E fuel : Nat) (r : Bool)
    (M' : Module) (hrun : InstrumentPaths M f T E fuel = some (r, M')) :
    ∃ Paths, searchPaths (predecessors M f) T E fuel = some Paths ∧
      (∀ c ∈ instrumentedBlocks M f Paths, ∀ B, M.block? f c = some B →
        ∃ B', M'.block? f c = some B' ∧
          B'.insts = B.insts.takeWhile Instruction.isSetup ++
            coverageCall c (insertionDebugLoc B) :: B.insts.dropWhile Instruction.isSetup ∧
          (∀ I ∈ B.insts.takeWhile Instruction.isSetup, I.isSetup = true) ∧
          (∀ I, (B.insts.dropWhile Instruction.isSetup).head? = some I → I.isSetup = false) ∧
          B'.insts.eraseIdx (getFirstInsertionPt B) = B.insts ∧
          B'.preds = B.preds) ∧
      (∀ g c, ¬ (g = f ∧ c ∈ instrumentedBlocks M f Paths) → M'.block? g c = M.block? g c) ∧
      (∀ g c, predecessors M' g c = predecessors M g c ∧
        successors M' g c = successors M g c) := by
  obtain ⟨Paths, hs, -, hb⟩ := block?_InstrumentPaths M f T E fuel r M' hrun
  refine ⟨Paths, hs, ?_, ?_, ?_⟩
  · intro c hc B hB
    refine ⟨B.insertAt (getFirstInsertionPt B) (coverageCall c (insertionDebugLoc B)), ?_,
      insts_insertAt_firstInsertionPt B _, ?_, ?_, ?_, rfl⟩
    · rw [hb f c, if_pos ⟨rfl, hc⟩, hB]
      rfl
    · intro I hI
      exact List.mem_takeWhile_imp hI
    · intro I hI
      have hne : B.insts.dropWhile Instruction.isSetup ≠ [] := by
        intro h
        rw [h] at hI
        simp at hI
      have h1 := List.head_dropWhile_not Instruction.isSetup B.insts hne
      rw [List.head?_eq_head hne] at hI
      rw [← Option.some.inj hI]
      simpa using h1
    · rw [insts_insertAt_firstInsertionPt]
      unfold getFirstInsertionPt
      rw [List.eraseIdx_append_of_length_le (Nat.le_refl _)]
      simp [List.takeWhile_append_dropWhile]
  · intro g c h
    rw [hb g c, if_neg h]
  · intro g c
    exact ⟨predecessors_InstrumentPaths M f T E fuel r M' hrun g c,
      successors_InstrumentPaths M f T E fuel r M' hrun g c⟩

/-- C16, witness: a target block that starts with a setup instruction. -/
theorem only_insertion_at_first_insertion_point_witness :
    InstrumentPaths phiTargetModule 0 1 0 10 = some (true, phiTargetModuleAfter) ∧
      ∃ Paths, searchPaths (predecessors phiTargetModule 0) 1 0 10 = some Paths ∧
        (∀ c ∈ instrumentedBlocks phiTargetModule 0 Paths, ∀ B,
          phiTargetModule.block? 0 c = some B →
          ∃ B', phiTargetModuleAfter.block? 0 c = some B' ∧
            B'.insts = B.insts.takeWhile Instruction.isSetup ++
              coverageCall c (insertionDebugLoc B) :: B.insts.dropWhile Instruction.isSetup ∧
            (∀ I ∈ B.insts.takeWhile Instruction.isSetup, I.isSetup = true) ∧
            (∀ I, (B.insts.dropWhile Instruction.isSetup).head? = some I →
              I.isSetup = false) ∧
            B'.insts.eraseIdx (getFirstInsertionPt B) = B.insts ∧
            B'.preds = B.preds) ∧
        (∀ g c, ¬ (g = 0 ∧ c ∈ instrumentedBlocks phiTargetModule 0 Paths) →
          phiTargetModuleAfter.block? g c = phiTargetModule.block? g c) ∧
        (∀ g c, predecessors phiTargetModuleAfter g c = predecessors phiTargetModule g c ∧
          successors phiTargetModuleAfter g c = successors phiTargetModule g c) :=
  ⟨by decide, only_insertion_at_first_insertion_point phiTargetModule 0 1 0 10 true
    phiTargetModuleAfter (by decide)⟩

theorem isSome_block?_InstrumentPaths (M : Module) (f T E fuel : Nat) (r : Bool) (M' : Module)
    (hrun : InstrumentPaths M f T E fuel = some (r, M')) (g c : Nat) :
    (M'.block? g c).isSome = (M.block? g c).isSome := by
  obtain ⟨Paths, -, -, hb⟩ := block?_InstrumentPaths M f T E fuel r M' hrun
  rw [hb g c]
  by_cases h : g = f ∧ c ∈ instrumentedBlocks M f Paths
  · rw [if_pos h]
    obtain ⟨rfl, -⟩ := h
    cases M.block? g c <;> rfl
  · rw [if_neg h]

theorem recorderDecls_InstrumentPaths (M : Module) (f T E fuel : Nat) (M' : Module)
    (hrun : InstrumentPaths M f T E fuel = some (true, M')) (huniq : recorderDecls M ≤ 1) :
    recorderDecls M' = 1 := by
  obtain ⟨Paths, -, -, hM'⟩ := InstrumentPaths_eq_applyCalls M f T E fuel M' hrun
  rw [recorderDecls_eq_signatures, hM', signatures_applyCalls, ← recorderDecls_eq_signatures]
  exact recorderDecls_getOrInsertFunction M coverageType huniq

theorem InstrumentPaths_of_searchPaths (M : Module) (f T E fuel : Nat)
    (Paths : List (List Nat)) (hs : searchPaths (predecessors M f) T E fuel = some Paths)
    (hne : Paths ≠ []) :
    ∃ M', InstrumentPaths M f T E fuel = some (true, M') := by
  unfold InstrumentPaths
  rw [hs]
  cases Paths with
  | nil => exact absurd rfl hne
  | cons p rest => exact ⟨_, by simp; rfl⟩

theorem InstrumentPaths_returns_of_searchPaths (M : Module) (f T E fuel : Nat)
    (Paths : List (List Nat)) (hs : searchPaths (predecessors M f) T E fuel = some Paths) :
    ∃ r M', InstrumentPaths M f T E fuel = some (r, M') := by
  unfold InstrumentPaths
  rw [hs]
  cases Paths with
  | nil => exact ⟨false, M, by simp⟩
  | cons p rest => exact ⟨true, _, by simp; rfl⟩

theorem InstrumentPathsTimes_counts (f T E fuel : Nat) (Paths : List (List Nat))
    (hne : Paths ≠ []) (n : Nat) :
    ∀ M : Module, searchPaths (predecessors M f) T E fuel = some Paths →
      (∀ b, (∃ p ∈ Paths, b ∈ p) → (M.block? f b).isSome = true) →
      recorderDecls M ≤ 1 →
      ∃ Mn, InstrumentPathsTimes f T E fuel n M = some Mn ∧
        (∀ b, (∃ p ∈ Paths, b ∈ p) → coverageCalls Mn f b = coverageCalls M f b + n) ∧
        (∀ g b, ¬ (g = f ∧ ∃ p ∈ Paths, b ∈ p) →
          coverageCalls Mn g b = coverageCalls M g b) ∧
        searchPaths (predecessors Mn f) T E fuel = some Paths ∧
        (0 < n → recorderDecls Mn = 1) := by
  induction n with
  | zero =>
    intro M hs _ _
    exact ⟨M, rfl, fun b _ => rfl, fun g b _ => rfl, hs, fun h => absurd h (Nat.lt_irrefl 0)⟩
  | succ n ih =>
    intro M hs hvalid huniq
    obtain ⟨M1, hrun⟩ := InstrumentPaths_of_searchPaths M f T E fuel Paths hs hne
    obtain ⟨Paths', hs', -, -, hcount⟩ := InstrumentPaths_eq_some M f T E fuel true M1 hrun
    rw [hs] at hs'
    obtain rfl := Option.some.inj hs'
    have hpreds : predecessors M1 f = predecessors M f :=
      funext (fun c => predecessors_InstrumentPaths M f T E fuel true M1 hrun f c)
    have hdecl := recorderDecls_InstrumentPaths M f T E fuel M1 hrun huniq
    obtain ⟨Mn, hMn, h1, h2, h3, h4⟩ := ih M1 (by rw [hpreds]; exact hs)
      (fun b hb => by
        rw [isSome_block?_InstrumentPaths M f T E fuel true M1 hrun]
        exact hvalid b hb)
      (by omega)
    refine ⟨Mn, ?_, ?_, ?_, h3, ?_⟩
    · show (match InstrumentPaths M f T E fuel with
        | some (_, M1) => InstrumentPathsTimes f T E fuel n M1
        | none => none) = some Mn
      rw [hrun]
      exact hMn
    · intro b hb
      rw [h1 b hb, hcount f b,
        if_pos ⟨rfl, hvalid b hb, (mem_instrumentedBlocks M f Paths b).2 hb⟩]
      omega
    · intro g b hn
      rw [h2 g b hn, hcount g b, if_neg]
      · rfl
      · rintro ⟨hg, _, hb⟩
        exact hn ⟨hg, (mem_instrumentedBlocks M f Paths b).1 hb⟩
    · intro _
      cases n with
      | zero =>
        simp only [InstrumentPathsTimes] at hMn
        rw [← Option.some.inj hMn]
        exact hdecl
      | succ n => exact h4 (Nat.succ_pos n)

/-- C17: after a run of `InstrumentPaths` that returns true, every further
run with the same target and entry on the module left by the run before
records the same paths and adds one more coverage call to each block on
them: after `n` runs each such block holds `n` calls more than at the start
(so `n` calls when it held none), every other block holds what it held, and
from the first run on the module has exactly one function of the recorder's
name. -/
theorem repeated_runs_add_calls (M : Module) (f T E fuel : Nat) (M1 : Module)
    (hrun : InstrumentPaths M f T E fuel = some (true, M1))
    (hwf : predsInFunction M f = true) (hT : (M.block? f T).isSome = true)
    (huniq : recorderDecls M ≤ 1) (n : Nat) :
    ∃ Paths Mn, searchPaths (predecessors M f) T E fuel = some Paths ∧
      InstrumentPathsTimes f T E fuel n M = some Mn ∧
      (∀ b, (∃ p ∈ Paths, b ∈ p) → coverageCalls Mn f b = coverageCalls M f b + n) ∧
      (∀ g b, ¬ (g = f ∧ ∃ p ∈ Paths, b ∈ p) → coverageCalls Mn g b = coverageCalls M g b) ∧
      searchPaths (predecessors Mn f) T E fuel = some Paths ∧
      (0 < n → recorderDecls Mn = 1) := by
  obtain ⟨Paths, hs, hne, -⟩ := InstrumentPaths_eq_applyCalls M f T E fuel M1 hrun
  have hvalid : ∀ b, (∃ p ∈ Paths, b ∈ p) → (M.block? f b).isSome = true := by
    rintro b ⟨p, hp, hb⟩
    have hw := ((searchPaths_mem _ T E fuel Paths hs p).1 hp).1
    exact isSome_block?_of_mem_walk M f hwf E T hT p hw b hb
  obtain ⟨Mn, h⟩ := InstrumentPathsTimes_counts f T E fuel Paths hne n M hs hvalid huniq
  exact ⟨Paths, Mn, hs, h⟩

/-- C17, witness: two runs on the diamond. -/
theorem repeated_runs_add_calls_witness :
    InstrumentPaths diamondModule 0 3 0 10 = some (true, diamondModuleAfter) ∧
      predsInFunction diamondModule 0 = true ∧
      (diamondModule.block? 0 3).isSome = true ∧
      recorderDecls diamondModule ≤ 1 ∧
      InstrumentPathsTimes 0 3 0 10 2 diamondModule = some diamondModuleTwice ∧
      ∃ Paths Mn, searchPaths (predecessors diamondModule 0) 3 0 10 = some Paths ∧
        InstrumentPathsTimes 0 3 0 10 2 diamondModule = some Mn ∧
        (∀ b, (∃ p ∈ Paths, b ∈ p) →
          coverageCalls Mn 0 b = coverageCalls diamondModule 0 b + 2) ∧
        (∀ g b, ¬ (g = 0 ∧ ∃ p ∈ Paths, b ∈ p) →
          coverageCalls Mn g b = coverageCalls diamondModule g b) ∧
        searchPaths (predecessors Mn 0) 3 0 10 = some Paths ∧
        (0 < 2 → recorderDecls Mn = 1) :=
  ⟨by decide, by decide, by decide, by decide, by decide,
    repeated_runs_add_calls diamondModule 0 3 0 10 diamondModuleAfter (by decide) (by decide)
      (by decide) (by decide) 2⟩

/-- C18: when the target is the entry, `InstrumentPaths` returns with any fuel
from 2 on, whatever the predecessors are: the search records the one path
`[E]` without looking at a predecessor, one call is created, in `E`, and the
result is true. -/
theorem target_is_entry (M : Module) (f E fuel : Nat)
    (hE : (M.block? f E).isSome = true) :
    (∀ preds : Nat → List Nat, searchPaths preds E E (fuel + 2) = some [[E]]) ∧
      InstrumentPaths M f E E (fuel + 2) = some (true,
        CreateCall (getOrInsertFunction M coverageName coverageType) f E coverageName
          (GetBasicBlockID E)) ∧
      ∀ g c, coverageCalls (CreateCall (getOrInsertFunction M coverageName coverageType) f E
          coverageName (GetBasicBlockID E)) g c =
        coverageCalls M g c + (if g = f ∧ c = E then 1 else 0) := by
  have hs : ∀ preds : Nat → List Nat, searchPaths preds E E (fuel + 2) = some [[E]] := by
    intro preds
    simp [searchPaths, searchLoop]
  refine ⟨hs, ?_, ?_⟩
  · unfold InstrumentPaths
    rw [hs]
    simp [instrumentLoop, instrumentBlock]
  · intro g c
    rw [coverageCalls_CreateCall, coverageCalls_getOrInsertFunction,
      block?_getOrInsertFunction]
    simp [hE]

/-- C18, witness: the entry of `entryLoopModule`, which lies on a loop. -/
theorem target_is_entry_witness :
    (entryLoopModule.block? 0 0).isSome = true ∧
      ((∀ preds : Nat → List Nat, searchPaths preds 0 0 (0 + 2) = some [[0]]) ∧
        InstrumentPaths entryLoopModule 0 0 0 (0 + 2) = some (true,
          CreateCall (getOrInsertFunction entryLoopModule coverageName coverageType) 0 0
            coverageName (GetBasicBlockID 0)) ∧
        ∀ g c, coverageCalls (CreateCall
            (getOrInsertFunction entryLoopModule coverageName coverageType) 0 0
            coverageName (GetBasicBlockID 0)) g c =
          coverageCalls entryLoopModule g c + (if g = 0 ∧ c = 0 then 1 else 0)) :=
  ⟨by decide, target_is_entry entryLoopModule 0 0 0 (by decide)⟩

/-! ## The search loop step by step -/

/-- The loop with fuel returns exactly when the queue is empty after one
iteration less than the fuel, and returns the paths recorded by then. -/
theorem searchLoop_eq_searchSteps (preds : Nat → List Nat) (E : Nat) :
    ∀ (n : Nat) (Queue Paths : List (List Nat)),
      searchLoop preds E (n + 1) Queue Paths =
        if (searchSteps preds E n Queue Paths).1 = [] then
          some (searchSteps preds E n Queue Paths).2
        else none := by
  intro n
  induction n with
  | zero =>
    intro Queue Paths
    cases Queue with
    | nil => simp [searchLoop, searchSteps]
    | cons p q =>
      cases hl : p.getLast? <;> simp [searchLoop, searchSteps, hl]
  | succ n ih =>
    intro Queue Paths
    cases Queue with
    | nil => simp [searchLoop, searchSteps]
    | cons p q =>
      rw [searchLoop, searchSteps]
      cases hl : p.getLast? with
      | none => simp
      | some c =>
        simp only
        by_cases hc : c = E
        · rw [if_pos hc, if_pos hc]
          exact ih _ _
        · rw [if_neg hc, if_neg hc]
          exact ih _ _

theorem cycleReachable_step (preds : Nat → List Nat) (E c : Nat)
    (h : CycleReachable (expandEdge preds E) c) :
    c ≠ E ∧ ∃ a ∈ preds c, CycleReachable (expandEdge preds E) a := by
  obtain ⟨d, hreach, hcyc⟩ := h
  rcases Relation.ReflTransGen.cases_head hreach with rfl | ⟨b, hcb, hbd⟩
  · obtain ⟨b, hcb, hbc⟩ := Relation.TransGen.head'_iff.1 hcyc
    exact ⟨hcb.1, b, hcb.2, c, hbc, hcyc⟩
  · exact ⟨hcb.1, b, hcb.2, d, hbd, hcyc⟩

/-- A queue that holds a path whose last block reaches a cycle of the search
steps is never emptied. -/
theorem searchSteps_queue_ne_nil (preds : Nat → List Nat) (E : Nat) :
    ∀ (n : Nat) (Queue Paths : List (List Nat)),
      (∃ p ∈ Queue, ∃ c, p.getLast? = some c ∧ CycleReachable (expandEdge preds E) c) →
      (searchSteps preds E n Queue Paths).1 ≠ [] := by
  intro n
  induction n with
  | zero =>
    rintro Queue Paths ⟨p, hp, -⟩
    exact List.ne_nil_of_mem hp
  | succ n ih =>
    rintro Queue Paths ⟨p, hp, c, hc, hD⟩
    cases Queue with
    | nil => simp at hp
    | cons hd tl =>
      rw [searchSteps]
      cases hl : hd.getLast? with
      | none => simp
      | some c0 =>
        simp only
        obtain ⟨hcE, a, ha, hDa⟩ := cycleReachable_step preds E c hD
        by_cases hc0 : c0 = E
        · rw [if_pos hc0]
          apply ih
          rcases List.mem_cons.1 hp with rfl | hp
          · rw [hl] at hc
            exact absurd ((Option.some.inj hc).symm.trans hc0) hcE
          · exact ⟨p, hp, c, hc, hD⟩
        · rw [if_neg hc0]
          apply ih
          rcases List.mem_cons.1 hp with rfl | hp
          · rw [hl] at hc
            obtain rfl := Option.some.inj hc
            exact ⟨p ++ [a], List.mem_append_right _ (List.mem_map.2 ⟨a, ha, rfl⟩), a,
              by simp, hDa⟩
          · exact ⟨p, List.mem_append_left _ hp, c, hc, hD⟩

theorem searchPaths_eq_none_of_cycle (preds : Nat → List Nat) (T E : Nat)
    (h : CycleReachable (expandEdge preds E) T) (fuel : Nat) :
    searchPaths preds T E fuel = none := by
  cases fuel with
  | zero => rfl
  | succ n =>
    unfold searchPaths
    rw [searchLoop_eq_searchSteps, if_neg]
    exact searchSteps_queue_ne_nil preds E n [[T]] [] ⟨[T], by simp, T, rfl, h⟩

theorem cycleReachable_expandEdge_of_no_preds (preds : Nat → List Nat) (T E : Nat)
    (hE : preds E = []) (h : CycleReachable (backEdge preds) T) :
    CycleReachable (expandEdge preds E) T := by
  have hmono : ∀ b a, backEdge preds b a → expandEdge preds E b a := by
    intro b a hba
    refine ⟨?_, hba⟩
    rintro rfl
    unfold backEdge at hba
    rw [hE] at hba
    simp at hba
  obtain ⟨c, h1, h2⟩ := h
  exact ⟨c, Relation.ReflTransGen.mono hmono h1, Relation.TransGen.mono hmono h2⟩

/-- C13: in a function whose entry `E` has no predecessor, when a cycle can be
reached from the target `T` by steps backward along CFG edges, the search of
`InstrumentPaths` does not finish: after any number of iterations the queue
is not empty, and with any fuel neither the search nor `InstrumentPaths`
returns. -/
theorem search_never_finishes_on_cycle (M : Module) (f T E : Nat)
    (hE : predecessors M f E = [])
    (hcyc : CycleReachable (backEdge (predecessors M f)) T) :
    (∀ n, (searchSteps (predecessors M f) E n [[T]] []).1 ≠ []) ∧
      (∀ fuel, searchPaths (predecessors M f) T E fuel = none) ∧
      (∀ fuel, InstrumentPaths M f T E fuel = none) := by
  have hcyc' := cycleReachable_expandEdge_of_no_preds _ T E hE hcyc
  have hs := searchPaths_eq_none_of_cycle (predecessors M f) T E hcyc'
  refine ⟨fun n => ?_, hs, fun fuel => ?_⟩
  · exact searchSteps_queue_ne_nil _ E n [[T]] [] ⟨[T], by simp, T, rfl, hcyc'⟩
  · unfold InstrumentPaths
    rw [hs fuel]

/-- C13, witness: the loop header 1 of `selfLoopModule` as the target. -/
theorem search_never_finishes_on_cycle_witness :
    predecessors selfLoopModule 0 0 = [] ∧
      CycleReachable (backEdge (predecessors selfLoopModule 0)) 1 ∧
      ((∀ n, (searchSteps (predecessors selfLoopModule 0) 0 n [[1]] []).1 ≠ []) ∧
        (∀ fuel, searchPaths (predecessors selfLoopModule 0) 1 0 fuel = none) ∧
        (∀ fuel, InstrumentPaths selfLoopModule 0 1 0 fuel = none)) :=
  ⟨by decide,
    ⟨1, Relation.ReflTransGen.refl,
      Relation.TransGen.single (show 1 ∈ predecessors selfLoopModule 0 1 by decide)⟩,
    search_never_finishes_on_cycle selfLoopModule 0 1 0 (by decide)
      ⟨1, Relation.ReflTransGen.refl,
        Relation.TransGen.single (show 1 ∈ predecessors selfLoopModule 0 1 by decide)⟩⟩

/-! ## Termination of the search -/

theorem searchCost_pos (preds : Nat → List Nat) (E d c : Nat) : 0 < searchCost preds E d c := by
  cases d with
  | zero => simp [searchCost]
  | succ d =>
    unfold searchCost
    split <;> omega

/-- The search ends within the fuel when the queued paths satisfy a property
`Good` that expansion keeps and that bounds their length by `L`, and the fuel
exceeds the cost of the queue. -/
theorem searchLoop_terminates (preds : Nat → List Nat) (E L : Nat) (Good : List Nat → Prop)
    (hlast : ∀ p, Good p → ∃ c, p.getLast? = some c)
    (hlen : ∀ p, Good p → p.length ≤ L)
    (hstep : ∀ p c a, Good p → p.getLast? = some c → c ≠ E → a ∈ preds c → Good (p ++ [a])) :
    ∀ (fuel : Nat) (Queue Paths : List (List Nat)),
      (∀ p ∈ Queue, Good p) →
      (Queue.map (pathCost preds E L)).sum < fuel →
      ∃ R, searchLoop preds E fuel Queue Paths = some R := by
  intro fuel
  induction fuel with
  | zero => intro Queue Paths _ h; exact absurd h (Nat.not_lt_zero _)
  | succ fuel ih =>
    intro Queue Paths hgood hcost
    cases Queue with
    | nil => exact ⟨Paths, rfl⟩
    | cons p q =>
      have hp := hgood p (List.mem_cons_self _ _)
      obtain ⟨c, hc⟩ := hlast p hp
      rw [searchLoop, hc]
      simp only
      simp only [List.map_cons, List.sum_cons] at hcost
      have hpc : pathCost preds E L p = searchCost preds E (L - p.length) c := by
        simp [pathCost, hc]
      have hpos := searchCost_pos preds E (L - p.length) c
      by_cases hcE : c = E
      · rw [if_pos hcE]
        apply ih
        · exact fun x hx => hgood x (List.mem_cons_of_mem _ hx)
        · omega
      · rw [if_neg hcE]
        apply ih
        · intro x hx
          rcases List.mem_append.1 hx with hx | hx
          · exact hgood x (List.mem_cons_of_mem _ hx)
          · obtain ⟨a, ha, rfl⟩ := List.mem_map.1 hx
            exact hstep p c a hp hc hcE ha
        · have hchildren : ((preds c).map (fun Pred => p ++ [Pred])).map (pathCost preds E L)
              = (preds c).map (searchCost preds E (L - (p.length + 1))) := by
            rw [List.map_map]
            apply List.map_congr_left
            intro a _
            simp [pathCost]
          rw [List.map_append, List.sum_append, hchildren]
          have hle : ((preds c).map (searchCost preds E (L - (p.length + 1)))).sum + 1
              ≤ searchCost preds E (L - p.length) c := by
            cases hpre : preds c with
            | nil => simp; omega
            | cons a rest =>
              have hlen' := hlen _ (hstep p c a hp hc hcE (by rw [hpre]; simp))
              rw [List.length_append, List.length_singleton] at hlen'
              have hL : L - p.length = (L - (p.length + 1)) + 1 := by omega
              rw [hL, searchCost, if_neg hcE, hpre]
              omega
          omega

theorem transGen_of_mem_chain (R : Nat → Nat → Prop) :
    ∀ (l : List Nat) (a : Nat), (a :: l).Chain' R → ∀ x ∈ l, Relation.TransGen R a x := by
  intro l
  induction l with
  | nil => intro a _ x hx; simp at hx
  | cons b rest ih =>
    intro a hchain x hx
    rw [List.chain'_cons] at hchain
    rcases List.mem_cons.1 hx with rfl | hx
    · exact Relation.TransGen.single hchain.1
    · exact Relation.TransGen.head hchain.1 (ih b hchain.2 x hx)

/-- A chain of `R` from a block that reaches no cycle of `R` repeats no
block. -/
theorem nodup_of_chain_of_not_cycleReachable (R : Nat → Nat → Prop) :
    ∀ (l : List Nat) (a : Nat), (a :: l).Chain' R → ¬ CycleReachable R a → (a :: l).Nodup := by
  intro l
  induction l with
  | nil => intro a _ _; simp
  | cons b rest ih =>
    intro a hchain hno
    rw [List.nodup_cons]
    constructor
    · intro hmem
      exact hno ⟨a, Relation.ReflTransGen.refl, transGen_of_mem_chain R _ a hchain a hmem⟩
    · have hab := (List.chain'_cons.1 hchain).1
      apply ih b (List.chain'_cons.1 hchain).2
      rintro ⟨c, hbc, hcc⟩
      exact hno ⟨c, Relation.ReflTransGen.head hab hbc, hcc⟩

theorem length_le_of_nodup_of_lt (n : Nat) (l : List Nat) (hnd : l.Nodup)
    (hlt : ∀ x ∈ l, x < n) : l.length ≤ n := by
  have hsub : l ⊆ List.range n := fun x hx => List.mem_range.2 (hlt x hx)
  have := (List.subperm_of_subset hnd hsub).length_le
  simpa using this

theorem lt_numBlocks_of_mem_predecessors (M : Module) (f : Nat)
    (hwf : predsInFunction M f = true) {a b : Nat} (h : a ∈ predecessors M f b) :
    a < numBlocks M f := by
  have hs := isSome_block?_of_mem_predecessors M f hwf h
  unfold Module.block? at hs
  unfold numBlocks
  cases hF : M.functions[f]? with
  | none => simp [hF] at hs
  | some F =>
    rw [hF] at hs
    simp only [Option.some_bind] at hs ⊢
    by_contra hge
    rw [List.getElem?_eq_none (by omega)] at hs
    simp at hs

/-- Without a cycle in reach of the search, a path of the search from `T` in
function `f` has at most one block more than `f` has blocks. -/
theorem chain_length_le (M : Module) (f T E : Nat) (hwf : predsInFunction M f = true)
    (hacyc : ¬ CycleReachable (expandEdge (predecessors M f) E) T) (p : List Nat)
    (hhead : p.head? = some T) (hchain : p.Chain' (expandEdge (predecessors M f) E)) :
    p.length ≤ numBlocks M f + 1 := by
  cases p with
  | nil => simp at hhead
  | cons t rest =>
    simp at hhead
    subst hhead
    have hnd := nodup_of_chain_of_not_cycleReachable _ rest t hchain hacyc
    have hlt : ∀ x ∈ rest, x < numBlocks M f := by
      intro x hx
      have hx' : x ∈ (t :: rest).tail := hx
      obtain ⟨b, -, hb⟩ : ∃ b, b ∈ t :: rest ∧ expandEdge (predecessors M f) E b x := by
        clear hnd hacyc hx'
        induction rest generalizing t with
        | nil => simp at hx
        | cons y rest ih =>
          rw [List.chain'_cons] at hchain
          rcases List.mem_cons.1 hx with rfl | hx
          · exact ⟨t, List.mem_cons_self _ _, hchain.1⟩
          · obtain ⟨b, hb, hbx⟩ := ih y hchain.2 hx
            exact ⟨b, List.mem_cons_of_mem _ hb, hbx⟩
      exact lt_numBlocks_of_mem_predecessors M f hwf hb.2
    have := length_le_of_nodup_of_lt (numBlocks M f) rest (List.nodup_cons.1 hnd).2 hlt
    simp only [List.length_cons]
    omega

/-- C14: in a function whose predecessor lists name blocks of the function,
when no cycle can be reached from the target `T` by steps backward along CFG
edges that never go on from the entry `E`, the search of `InstrumentPaths`
ends: from some fuel on, the queue is empty after that many iterations, the
search returns its paths and `InstrumentPaths` returns. -/
theorem search_terminates_without_cycle (M : Module) (f T E : Nat)
    (hwf : predsInFunction M f = true)
    (hacyc : ¬ CycleReachable (expandEdge (predecessors M f) E) T) :
    ∃ fuel0, ∀ fuel, fuel0 ≤ fuel →
      (searchSteps (predecessors M f) E fuel [[T]] []).1 = [] ∧
      (∃ Paths, searchPaths (predecessors M f) T E (fuel + 1) = some Paths) ∧
      (∃ r M', InstrumentPaths M f T E (fuel + 1) = some (r, M')) := by
  refine ⟨pathCost (predecessors M f) E (numBlocks M f + 1) [T], fun fuel hfuel => ?_⟩
  have hterm : ∃ Paths, searchPaths (predecessors M f) T E (fuel + 1) = some Paths := by
    apply searchLoop_terminates (predecessors M f) E (numBlocks M f + 1)
      (fun p => p.head? = some T ∧ p.Chain' (expandEdge (predecessors M f) E))
    · rintro p ⟨hhead, -⟩
      cases p with
      | nil => simp at hhead
      | cons x rest => exact ⟨_, List.getLast?_eq_getLast _ (List.cons_ne_nil _ _)⟩
    · rintro p ⟨hhead, hchain⟩
      exact chain_length_le M f T E hwf hacyc p hhead hchain
    · rintro p c a ⟨hhead, hchain⟩ hc hcE ha
      refine ⟨?_, ?_⟩
      · cases p with
        | nil => simp at hhead
        | cons x rest => simpa using hhead
      · refine List.Chain'.append hchain (List.chain'_singleton a) ?_
        intro x hx y hy
        rw [hc] at hx
        simp at hx hy
        subst hx hy
        exact ⟨hcE, ha⟩
    · intro p hp
      rw [List.mem_singleton] at hp
      subst hp
      exact ⟨rfl, List.chain'_singleton T⟩
    · simp only [List.map_cons, List.map_nil, List.sum_cons, List.sum_nil]
      omega
  obtain ⟨Paths, hs⟩ := hterm
  refine ⟨?_, ⟨Paths, hs⟩, ?_⟩
  · unfold searchPaths at hs
    rw [searchLoop_eq_searchSteps] at hs
    by_contra hne
    rw [if_neg hne] at hs
    simp at hs
  · exact InstrumentPaths_returns_of_searchPaths M f T E (fuel + 1) Paths hs

theorem not_cycleReachable_of_decreasing (R : Nat → Nat → Prop) (T : Nat)
    (hdec : ∀ b a, R b a → a < b) : ¬ CycleReachable R T := by
  rintro ⟨c, -, hcc⟩
  have hlt : ∀ a b, Relation.TransGen R a b → b < a := by
    intro a b h
    induction h with
    | single h => exact hdec _ _ h
    | tail _ h ih => exact Nat.lt_trans (hdec _ _ h) ih
  exact Nat.lt_irrefl c (hlt c c hcc)

theorem lt_of_predsBelow (M : Module) (f : Nat) (h : predsBelow M f = true) (b a : Nat)
    (ha : a ∈ predecessors M f b) : a < b := by
  unfold predsBelow at h
  rw [List.all_eq_true] at h
  by_cases hb : b < numBlocks M f
  · have h1 := h b (List.mem_range.2 hb)
    rw [List.all_eq_true] at h1
    simpa using h1 a ha
  · exfalso
    unfold predecessors Module.block? at ha
    unfold numBlocks at hb
    cases hF : M.functions[f]? with
    | none => simp [hF] at ha
    | some F =>
      rw [hF] at ha hb
      simp only [Option.some_bind] at ha hb
      rw [List.getElem?_eq_none (by omega)] at ha
      simp at ha

/-- C14, witness: the diamond, whose blocks list only blocks of a smaller
index as predecessors. -/
theorem search_terminates_without_cycle_witness :
    predsInFunction diamondModule 0 = true ∧
      ¬ CycleReachable (expandEdge (predecessors diamondModule 0) 0) 3 ∧
      ∃ fuel0, ∀ fuel, fuel0 ≤ fuel →
        (searchSteps (predecessors diamondModule 0) 0 fuel [[3]] []).1 = [] ∧
        (∃ Paths, searchPaths (predecessors diamondModule 0) 3 0 (fuel + 1) = some Paths) ∧
        (∃ r M', InstrumentPaths diamondModule 0 3 0 (fuel + 1) = some (r, M')) :=
  ⟨by decide,
    not_cycleReachable_of_decreasing _ 3
      (fun b a h => lt_of_predsBelow diamondModule 0 (by decide) b a h.2),
    search_terminates_without_cycle diamondModule 0 3 0 (by decide)
      (not_cycleReachable_of_decreasing _ 3
        (fun b a h => lt_of_predsBelow diamondModule 0 (by decide) b a h.2))⟩

/-! ## Breadth-first order -/

theorem breadthFirst_searchSteps (preds : Nat → List Nat) (E : Nat) :
    ∀ (n : Nat) (Queue Paths : List (List Nat)), BreadthFirst Queue Paths →
      BreadthFirst (searchSteps preds E n Queue Paths).1 (searchSteps preds E n Queue Paths).2 := by
  intro n
  induction n with
  | zero => intro Queue Paths h; exact h
  | succ n ih =>
    intro Queue Paths h
    cases Queue with
    | nil => exact h
    | cons p q =>
      rw [searchSteps]
      cases hl : p.getLast? with
      | none => exact h
      | some c =>
        simp only
        obtain ⟨hP, hQ, hPQ, hdiff⟩ := h
        obtain ⟨hpq, hq⟩ := List.pairwise_cons.1 hQ
        by_cases hc : c = E
        · rw [if_pos hc]
          apply ih
          refine ⟨?_, hq, ?_, ?_⟩
          · rw [List.pairwise_append]
            refine ⟨hP, List.pairwise_singleton _ _, ?_⟩
            intro a ha b hb
            rw [List.mem_singleton] at hb
            subst hb
            rw [List.length_reverse]
            exact hPQ a ha p (List.mem_cons_self _ _)
          · intro a ha x hx
            rcases List.mem_append.1 ha with ha | ha
            · exact hPQ a ha x (List.mem_cons_of_mem _ hx)
            · rw [List.mem_singleton] at ha
              subst ha
              rw [List.length_reverse]
              exact hpq x hx
          · intro x hx y hy
            exact hdiff x (List.mem_cons_of_mem _ hx) y (List.mem_cons_of_mem _ hy)
        · rw [if_neg hc]
          apply ih
          have hchild : ∀ x ∈ (preds c).map (fun Pred => p ++ [Pred]),
              x.length = p.length + 1 := by
            intro x hx
            obtain ⟨a, -, rfl⟩ := List.mem_map.1 hx
            simp
          have hlow : ∀ x ∈ q ++ (preds c).map (fun Pred => p ++ [Pred]),
              p.length ≤ x.length ∧ x.length ≤ p.length + 1 := by
            intro x hx
            rcases List.mem_append.1 hx with hx | hx
            · exact ⟨hpq x hx, hdiff p (List.mem_cons_self _ _) x (List.mem_cons_of_mem _ hx)⟩
            · have := hchild x hx
              omega
          refine ⟨hP, ?_, ?_, ?_⟩
          · rw [List.pairwise_append]
            refine ⟨hq, ?_, ?_⟩
            · rw [List.pairwise_iff_forall_sublist]
              intro a b hab
              have ha := hchild a (hab.subset (List.mem_cons_self _ _))
              have hb := hchild b (hab.subset (List.mem_cons_of_mem _ (List.mem_singleton.2 rfl)))
              omega
            · intro a ha b hb
              have h1 := hdiff p (List.mem_cons_self _ _) a (List.mem_cons_of_mem _ ha)
              have h2 := hchild b hb
              omega
          · intro a ha x hx
            have h1 := hPQ a ha p (List.mem_cons_self _ _)
            have h2 := (hlow x hx).1
            omega
          · intro x hx y hy
            have h1 := (hlow x hx).1
            have h2 := (hlow y hy).2
            omega

theorem breadthFirst_init (T : Nat) : BreadthFirst [[T]] [] := by
  refine ⟨List.Pairwise.nil, List.pairwise_singleton _ _, ?_, ?_⟩
  · intro a ha
    simp at ha
  · intro q hq q' hq'
    rw [List.mem_singleton] at hq hq'
    subst hq hq'
    omega

theorem searchPaths_eq_searchSteps (preds : Nat → List Nat) (T E fuel : Nat)
    (Paths : List (List Nat)) (hs : searchPaths preds T E fuel = some Paths) :
    ∃ n, fuel = n + 1 ∧ (searchSteps preds E n [[T]] []).1 = [] ∧
      (searchSteps preds E n [[T]] []).2 = Paths := by
  cases fuel with
  | zero => simp [searchPaths, searchLoop] at hs
  | succ n =>
    unfold searchPaths at hs
    rw [searchLoop_eq_searchSteps] at hs
    refine ⟨n, rfl, ?_⟩
    by_cases he : (searchSteps preds E n [[T]] []).1 = []
    · rw [if_pos he] at hs
      exact ⟨he, Option.some.inj hs⟩
    · rw [if_neg he] at hs
      simp at hs

/-- A walk from `E` to `T` has a part, no longer than itself, that is a walk
from `E` to `T` and meets `E` at its start only. -/
theorem exists_entry_first_walk (preds : Nat → List Nat) (E T : Nat) :
    ∀ (n : Nat) (w : List Nat), w.length ≤ n → IsWalk preds E T w →
      ∃ w', IsWalk preds E T w' ∧ E ∉ w'.tail ∧ w'.length ≤ w.length := by
  intro n
  induction n with
  | zero =>
    intro w hlen hw
    have : w = [] := List.eq_nil_of_length_eq_zero (by omega)
    subst this
    exact absurd hw.1 (by simp)
  | succ n ih =>
    intro w hlen hw
    by_cases hE : E ∈ w.tail
    · obtain ⟨hhead, hlast, hchain⟩ := hw
      cases w with
      | nil => simp at hhead
      | cons x rest =>
        simp at hhead
        subst hhead
        simp only [List.tail_cons] at hE
        obtain ⟨l1, l2, hsplit⟩ := List.append_of_mem hE
        have hw_eq : x :: rest = (x :: l1) ++ (x :: l2) := by simp [hsplit]
        have hw2 : IsWalk preds x T (x :: l2) := by
          refine ⟨rfl, ?_, ?_⟩
          · rw [← hlast, hw_eq]
            exact (List.getLast?_append_of_ne_nil _ (List.cons_ne_nil _ _)).symm
          · rw [hw_eq] at hchain
            exact (List.chain'_append.1 hchain).2.1
        have hlen2 : (x :: l2).length ≤ n := by
          have := congrArg List.length hsplit
          simp at this hlen ⊢
          omega
        obtain ⟨w', h1, h2, h3⟩ := ih (x :: l2) hlen2 hw2
        refine ⟨w', h1, h2, ?_⟩
        have := congrArg List.length hsplit
        simp at this h3 ⊢
        omega
    · exact ⟨w, hw, hE, Nat.le_refl _⟩

/-- C19: the paths recorded by a finished search come in order of
non-decreasing length, and the first of them is no longer than any walk from
the entry to the target; at every iteration the queued paths come in order of
non-decreasing length and none is longer than another by more than one
block. -/
theorem recorded_paths_breadth_first (preds : Nat → List Nat) (T E fuel : Nat)
    (Paths : List (List Nat)) (hs : searchPaths preds T E fuel = some Paths) :
    Paths.Pairwise (fun p q => p.length ≤ q.length) ∧
      (∀ p0, Paths.head? = some p0 → ∀ w, IsWalk preds E T w → p0.length ≤ w.length) ∧
      (∀ n, (searchSteps preds E n [[T]] []).1.Pairwise (fun p q => p.length ≤ q.length) ∧
        ∀ q ∈ (searchSteps preds E n [[T]] []).1, ∀ q' ∈ (searchSteps preds E n [[T]] []).1,
          q'.length ≤ q.length + 1) := by
  obtain ⟨n, -, -, hP⟩ := searchPaths_eq_searchSteps preds T E fuel Paths hs
  have hsorted : Paths.Pairwise (fun p q => p.length ≤ q.length) := by
    rw [← hP]
    exact (breadthFirst_searchSteps preds E n _ _ (breadthFirst_init T)).1
  refine ⟨hsorted, ?_, fun k => ?_⟩
  · intro p0 hp0 w hw
    obtain ⟨w', hw', hE, hlen⟩ := exists_entry_first_walk preds E T w.length w (Nat.le_refl _) hw
    have hmem : w' ∈ Paths := (searchPaths_mem preds T E fuel Paths hs w').2 ⟨hw', hE⟩
    cases Paths with
    | nil => simp at hmem
    | cons p rest =>
      simp at hp0
      subst hp0
      rcases List.mem_cons.1 hmem with rfl | hmem
      · exact hlen
      · exact Nat.le_trans ((List.pairwise_cons.1 hsorted).1 w' hmem) hlen
  · have h := breadthFirst_searchSteps preds E k _ _ (breadthFirst_init T)
    exact ⟨h.2.1, h.2.2.2⟩

/-- C19, witness: the diamond. -/
theorem recorded_paths_breadth_first_witness :
    searchPaths (predecessors diamondModule 0) 3 0 10 = some [[0, 1, 3], [0, 2, 3]] ∧
      ([[0, 1, 3], [0, 2, 3]].Pairwise (fun p q => p.length ≤ q.length) ∧
        (∀ p0, [[0, 1, 3], [0, 2, 3]].head? = some p0 → ∀ w,
          IsWalk (predecessors diamondModule 0) 0 3 w → p0.length ≤ w.length) ∧
        (∀ n, (searchSteps (predecessors diamondModule 0) 0 n [[3]] []).1.Pairwise
            (fun p q => p.length ≤ q.length) ∧
          ∀ q ∈ (searchSteps (predecessors diamondModule 0) 0 n [[3]] []).1,
            ∀ q' ∈ (searchSteps (predecessors diamondModule 0) 0 n [[3]] []).1,
              q'.length ≤ q.length + 1)) :=
  ⟨by decide, recorded_paths_breadth_first (predecessors diamondModule 0) 3 0 10
    [[0, 1, 3], [0, 2, 3]] (by decide)⟩

/-! ## The diamond -/

/-- C12: in a diamond, where the target `T` has the predecessors `A` and `B`
and each of these has the entry `E` as its one predecessor, the four blocks
being distinct, `InstrumentPaths` returns with any fuel from 6 on; it records
the two paths `[E, A, T]` and `[E, B, T]`, marks the four blocks `E`, `A`,
`T`, `B` once each, and adds exactly one coverage call to each of them and
none to any other block. -/
theorem diamond_two_paths_four_calls (M : Module) (f E A B T fuel : Nat)
    (hT : predecessors M f T = [A, B]) (hA : predecessors M f A = [E])
    (hB : predecessors M f B = [E]) (hE : (M.block? f E).isSome = true)
    (hTE : T ≠ E) (hAE : A ≠ E) (hBE : B ≠ E) (hAB : A ≠ B) :
    searchPaths (predecessors M f) T E (fuel + 6) = some [[E, A, T], [E, B, T]] ∧
      instrumentedBlocks M f [[E, A, T], [E, B, T]] = [E, A, T, B] ∧
      ∃ M', InstrumentPaths M f T E (fuel + 6) = some (true, M') ∧
        (∀ b ∈ [E, A, B, T], coverageCalls M' f b = coverageCalls M f b + 1) ∧
        (∀ g b, ¬ (g = f ∧ b ∈ [E, A, B, T]) → coverageCalls M' g b = coverageCalls M g b) := by
  have hAT : A ≠ T := by
    rintro rfl
    rw [hA] at hT
    simp at hT
  have hBT : B ≠ T := by
    rintro rfl
    rw [hB] at hT
    simp at hT
  have hvalid : ∀ b, predecessors M f b ≠ [] → (M.block? f b).isSome = true := by
    intro b hb
    unfold predecessors at hb
    cases hblk : M.block? f b with
    | none => rw [hblk] at hb; exact absurd rfl hb
    | some _ => rfl
  have hTv := hvalid T (by rw [hT]; simp)
  have hAv := hvalid A (by rw [hA]; simp)
  have hBv := hvalid B (by rw [hB]; simp)
  have hs : searchPaths (predecessors M f) T E (fuel + 6) = some [[E, A, T], [E, B, T]] := by
    simp [searchPaths, searchLoop, hT, hA, hB, hTE, hAE, hBE]
  have hI : instrumentedBlocks M f [[E, A, T], [E, B, T]] = [E, A, T, B] := by
    simp [instrumentedBlocks, instrumentLoop, instrumentBlock, hTE, hAE, hBE, hAB, hAT, hBT,
      hTE.symm, hAE.symm, hBE.symm, hAB.symm, hAT.symm, hBT.symm]
  refine ⟨hs, hI, ?_⟩
  obtain ⟨M', hrun⟩ := InstrumentPaths_of_searchPaths M f T E (fuel + 6) _ hs (by simp)
  obtain ⟨Paths, hs', -, -, hcount⟩ := InstrumentPaths_eq_some M f T E (fuel + 6) true M' hrun
  rw [hs] at hs'
  obtain rfl := Option.some.inj hs'
  have hmem : ∀ b, b ∈ [E, A, T, B] ↔ b ∈ [E, A, B, T] := by
    intro b
    simp only [List.mem_cons, List.mem_singleton, List.not_mem_nil, or_false]
    constructor
    · rintro (h | h | h | h)
      · exact Or.inl h
      · exact Or.inr (Or.inl h)
      · exact Or.inr (Or.inr (Or.inr h))
      · exact Or.inr (Or.inr (Or.inl h))
    · rintro (h | h | h | h)
      · exact Or.inl h
      · exact Or.inr (Or.inl h)
      · exact Or.inr (Or.inr (Or.inr h))
      · exact Or.inr (Or.inr (Or.inl h))
  refine ⟨M', hrun, ?_, ?_⟩
  · intro b hb
    have hbv : (M.block? f b).isSome = true := by
      simp only [List.mem_cons, List.mem_singleton, List.not_mem_nil, or_false] at hb
      rcases hb with h | h | h | h
      · rw [h]; exact hE
      · rw [h]; exact hAv
      · rw [h]; exact hBv
      · rw [h]; exact hTv
    have hc : f = f ∧ (M.block? f b).isSome = true ∧
        b ∈ instrumentedBlocks M f [[E, A, T], [E, B, T]] :=
      ⟨rfl, hbv, by rw [hI]; exact (hmem b).2 hb⟩
    rw [hcount f b, if_pos hc]
  · intro g b hn
    have hc : ¬ (g = f ∧ (M.block? f b).isSome = true ∧
        b ∈ instrumentedBlocks M f [[E, A, T], [E, B, T]]) := by
      rintro ⟨hg, -, hb⟩
      rw [hI] at hb
      exact hn ⟨hg, (hmem b).1 hb⟩
    rw [hcount g b, if_neg hc, Nat.add_zero]

/-- C12, witness: the diamond of the blocks 0, 1, 2 and 3. -/
theorem diamond_two_paths_four_calls_witness :
    predecessors diamondModule 0 3 = [1, 2] ∧ predecessors diamondModule 0 1 = [0] ∧
      predecessors diamondModule 0 2 = [0] ∧ (diamondModule.block? 0 0).isSome = true ∧
      InstrumentPaths diamondModule 0 3 0 (0 + 6) = some (true, diamondModuleAfter) ∧
      (searchPaths (predecessors diamondModule 0) 3 0 (0 + 6) = some [[0, 1, 3], [0, 2, 3]] ∧
        instrumentedBlocks diamondModule 0 [[0, 1, 3], [0, 2, 3]] = [0, 1, 3, 2] ∧
        ∃ M', InstrumentPaths diamondModule 0 3 0 (0 + 6) = some (true, M') ∧
          (∀ b ∈ [0, 1, 2, 3],
            coverageCalls M' 0 b = coverageCalls diamondModule 0 b + 1) ∧
          (∀ g b, ¬ (g = 0 ∧ b ∈ [0, 1, 2, 3]) →
            coverageCalls M' g b = coverageCalls diamondModule g b)) :=
  ⟨by decide, by decide, by decide, by decide, by decide,
    diamond_two_paths_four_calls diamondModule 0 0 1 2 3 0 (by decide) (by decide) (by decide)
      (by decide) (by decide) (by decide) (by decide) (by decide)⟩

/-! ## How often a path is recorded -/

theorem sum_map_ite_eq (l : List Nat) (x k : Nat) :
    (l.map (fun a => if a = x then k else 0)).sum = l.count x * k := by
  induction l with
  | nil => simp
  | cons a rest ih =>
    rw [List.map_cons, List.sum_cons, ih, List.count_cons]
    by_cases h : a = x
    · simp [h, Nat.add_mul]
      omega
    · simp [h]

theorem queuedCount_of_last_entry (preds : Nat → List Nat) (E : Nat) (p w : List Nat)
    (hl : p.getLast? = some E) :
    queuedCount preds E p w = if p = w then 1 else 0 := by
  unfold queuedCount
  rw [hl]
  simp only
  by_cases hp : p <+: w
  · rw [if_pos hp]
    obtain ⟨t, rfl⟩ := hp
    rw [List.drop_left]
    cases t with
    | nil => simp [extendCount]
    | cons x t => simp [extendCount]
  · rw [if_neg hp, if_neg]
    rintro rfl
    exact hp (List.prefix_refl _)

theorem queuedCount_expand (preds : Nat → List Nat) (E : Nat) (p w : List Nat) (c : Nat)
    (hl : p.getLast? = some c) (hc : c ≠ E) :
    ((preds c).map (fun a => queuedCount preds E (p ++ [a]) w)).sum
      = queuedCount preds E p w := by
  have hchild : ∀ a, queuedCount preds E (p ++ [a]) w =
      if p ++ [a] <+: w then extendCount preds E a (w.drop (p.length + 1)) else 0 := by
    intro a
    simp [queuedCount]
  simp only [hchild]
  unfold queuedCount
  rw [hl]
  simp only
  by_cases hp : p <+: w
  · rw [if_pos hp]
    obtain ⟨t, rfl⟩ := hp
    rw [List.drop_left]
    cases t with
    | nil =>
      have hno : ∀ a, ¬ (p ++ [a] <+: p) := by
        intro a h
        have := h.length_le
        simp at this
      simp only [List.append_nil, hno, if_false, extendCount, if_neg hc]
      simp
    | cons x t =>
      have hiff : ∀ a, (p ++ [a] <+: p ++ x :: t) ↔ a = x := by
        intro a
        rw [List.prefix_append_right_inj]
        simp [List.cons_prefix_cons]
      have hdrop : (p ++ x :: t).drop (p.length + 1) = t := by
        rw [← List.drop_drop, List.drop_left]
        rfl
      have hterm : ∀ a, (if p ++ [a] <+: p ++ x :: t then
            extendCount preds E a ((p ++ x :: t).drop (p.length + 1)) else 0)
          = if a = x then extendCount preds E x t else 0 := by
        intro a
        by_cases ha : a = x
        · subst ha
          rw [if_pos ((hiff a).2 rfl), if_pos rfl, hdrop]
        · rw [if_neg (fun h => ha ((hiff a).1 h)), if_neg ha]
      simp only [hterm]
      rw [sum_map_ite_eq]
      simp [extendCount, hc]
  · rw [if_neg hp]
    have hno : ∀ a, ¬ (p ++ [a] <+: w) :=
      fun a h => hp (List.IsPrefix.trans (List.prefix_append p [a]) h)
    simp [hno]

/-- The number of times that the finished loop holds a path: the times it
held it before, and the times the queued paths lead to it. -/
theorem searchLoop_count (preds : Nat → List Nat) (E : Nat) :
    ∀ (fuel : Nat) (Queue Paths R : List (List Nat)),
      searchLoop preds E fuel Queue Paths = some R →
      ∀ w : List Nat, R.count w.reverse =
        Paths.count w.reverse + (Queue.map (fun p => queuedCount preds E p w)).sum := by
  intro fuel
  induction fuel with
  | zero => intro Queue Paths R h; simp [searchLoop] at h
  | succ fuel ih =>
    intro Queue Paths R h w
    cases Queue with
    | nil =>
      simp [searchLoop] at h
      subst h
      simp
    | cons p q =>
      rw [searchLoop] at h
      cases hl : p.getLast? with
      | none => rw [hl] at h; simp at h
      | some c =>
        rw [hl] at h
        simp only at h
        by_cases hc : c = E
        · rw [if_pos hc] at h
          subst hc
          rw [ih _ _ _ h w, List.map_cons, List.sum_cons,
            queuedCount_of_last_entry preds c p w hl, List.count_append, List.count_singleton]
          by_cases hpw : p = w
          · subst hpw
            simp
            omega
          · have : ¬ (p.reverse = w.reverse) := fun h => hpw (List.reverse_injective h)
            simp [hpw, this]
        · rw [if_neg hc] at h
          rw [ih _ _ _ h w, List.map_cons, List.sum_cons, List.map_append, List.sum_append,
            List.map_map]
          have := queuedCount_expand preds E p w c hl hc
          simp only [Function.comp_def]
          omega

theorem extendCount_eq_edgeMultiplicity (preds : Nat → List Nat) (E : Nat) :
    ∀ (ext : List Nat) (c : Nat), (c :: ext).getLast? = some E →
      (∀ y ∈ (c :: ext).dropLast, y ≠ E) →
      extendCount preds E c ext = edgeMultiplicity preds (c :: ext) := by
  intro ext
  induction ext with
  | nil =>
    intro c hlast _
    simp at hlast
    simp [extendCount, edgeMultiplicity, hlast]
  | cons x ext ih =>
    intro c hlast hne
    have hc : c ≠ E := hne c (by simp [List.dropLast])
    have hlast' : (x :: ext).getLast? = some E := by
      rw [List.getLast?_cons_cons] at hlast
      exact hlast
    have hne' : ∀ y ∈ (x :: ext).dropLast, y ≠ E := by
      intro y hy
      apply hne
      simp only [List.dropLast]
      exact List.mem_cons_of_mem _ hy
    rw [extendCount, if_neg hc, edgeMultiplicity, ih x hlast' hne']

/-- A path that is a walk from the entry to the target and meets the entry at
its start only is recorded as often as the product of the listings of its
edges says. -/
theorem searchPaths_count (preds : Nat → List Nat) (T E fuel : Nat) (Paths : List (List Nat))
    (hs : searchPaths preds T E fuel = some Paths) (r : List Nat)
    (hw : IsWalk preds E T r) (hE : E ∉ r.tail) :
    Paths.count r = pathMultiplicity preds r := by
  have h := searchLoop_count preds E fuel _ _ _ hs r.reverse
  rw [List.reverse_reverse] at h
  rw [h]
  obtain ⟨hhead, hlast, -⟩ := hw
  unfold pathMultiplicity
  have hh : r.reverse.head? = some T := by rw [List.head?_reverse]; exact hlast
  have hl : r.reverse.getLast? = some E := by rw [List.getLast?_reverse]; exact hhead
  have hd : ∀ y ∈ r.reverse.dropLast, y ≠ E := by
    intro y hy hyE
    apply hE
    rw [← List.reverse_reverse r, List.tail_reverse, List.mem_reverse, ← hyE]
    exact hy
  cases hr : r.reverse with
  | nil => rw [hr] at hh; simp at hh
  | cons t ext =>
    rw [hr] at hh hl hd
    simp at hh
    subst hh
    simp [queuedCount, List.cons_prefix_cons, extendCount_eq_edgeMultiplicity preds E ext t hl hd]

theorem count_le_one_of_nodup {α : Type} [BEq α] [LawfulBEq α] :
    ∀ (l : List α), l.Nodup → ∀ a, l.count a ≤ 1 := by
  intro l
  induction l with
  | nil => intro _ a; simp
  | cons x rest ih =>
    intro hnd a
    obtain ⟨hx, hrest⟩ := List.nodup_cons.1 hnd
    rw [List.count_cons]
    by_cases hxa : x = a
    · subst hxa
      have : rest.count x = 0 := List.count_eq_zero.2 hx
      simp [this]
    · have := ih hrest a
      simp [hxa]
      exact this

theorem nodup_of_count_le_one {α : Type} [BEq α] [LawfulBEq α] :
    ∀ (l : List α), (∀ a, l.count a ≤ 1) → l.Nodup := by
  intro l
  induction l with
  | nil => intro _; exact List.nodup_nil
  | cons x rest ih =>
    intro h
    rw [List.nodup_cons]
    constructor
    · intro hx
      have h1 := h x
      rw [List.count_cons_self] at h1
      have h2 : 0 < rest.count x := List.count_pos_iff.2 hx
      omega
    · apply ih
      intro a
      have h1 := h a
      rw [List.count_cons] at h1
      omega

theorem edgeMultiplicity_le_one (preds : Nat → List Nat)
    (h : ∀ b a, (preds b).count a ≤ 1) : ∀ w, edgeMultiplicity preds w ≤ 1 := by
  intro w
  induction w with
  | nil => simp [edgeMultiplicity]
  | cons b rest ih =>
    cases rest with
    | nil => simp [edgeMultiplicity]
    | cons a rest =>
      rw [edgeMultiplicity]
      exact Nat.mul_le_mul (h b a) ih

theorem chain_and_of_dropLast {P : Nat → Prop} {R : Nat → Nat → Prop} :
    ∀ w : List Nat, w.Chain' R → (∀ y ∈ w.dropLast, P y) →
      w.Chain' (fun b a => P b ∧ R b a) := by
  intro w
  induction w with
  | nil => intro _ _; exact List.chain'_nil
  | cons b rest ih =>
    intro hchain hP
    cases rest with
    | nil => exact List.chain'_singleton b
    | cons a rest =>
      rw [List.chain'_cons] at hchain ⊢
      refine ⟨⟨hP b (by simp [List.dropLast]), hchain.1⟩, ih hchain.2 ?_⟩
      intro y hy
      apply hP
      simp only [List.dropLast]
      exact List.mem_cons_of_mem _ hy

/-- A path recorded by a finished search, read from the target backwards, is
a chain of search steps from the target and repeats no block. -/
theorem recorded_reverse_chain_nodup (preds : Nat → List Nat) (T E fuel : Nat)
    (Paths : List (List Nat)) (hs : searchPaths preds T E fuel = some Paths) (r : List Nat)
    (hr : r ∈ Paths) :
    r.reverse.Chain' (fun b a => a ∈ preds b) ∧ r.reverse.Nodup := by
  obtain ⟨⟨hhead, hlast, hchain⟩, hE⟩ := (searchPaths_mem preds T E fuel Paths hs r).1 hr
  have hback : r.reverse.Chain' (fun b a => a ∈ preds b) := by
    rw [List.chain'_reverse]
    exact hchain
  refine ⟨hback, ?_⟩
  have hd : ∀ y ∈ r.reverse.dropLast, y ≠ E := by
    intro y hy hyE
    apply hE
    rw [← List.reverse_reverse r, List.tail_reverse, List.mem_reverse, ← hyE]
    exact hy
  have hexp : r.reverse.Chain' (expandEdge preds E) := chain_and_of_dropLast _ hback hd
  have hno : ¬ CycleReachable (expandEdge preds E) T := by
    intro hc
    rw [searchPaths_eq_none_of_cycle preds T E hc fuel] at hs
    simp at hs
  have hh : r.reverse.head? = some T := by rw [List.head?_reverse]; exact hlast
  cases hw : r.reverse with
  | nil => rw [hw] at hh; simp at hh
  | cons t rest =>
    rw [hw] at hh hexp
    simp at hh
    subst hh
    exact nodup_of_chain_of_not_cycleReachable _ rest t hexp hno

theorem infix_pair_cons_cons (b a b' a' : Nat) (rest : List Nat) :
    [b, a] <:+: b' :: a' :: rest ↔ (b = b' ∧ a = a') ∨ [b, a] <:+: a' :: rest := by
  rw [List.infix_cons_iff]
  simp [List.cons_prefix_cons]

theorem edgeMultiplicity_eq_one (preds : Nat → List Nat) (a b : Nat)
    (hothers : ∀ a' b', (a', b') ≠ (a, b) → (preds b').count a' ≤ 1) :
    ∀ w : List Nat, w.Chain' (fun b a => a ∈ preds b) → ¬ [b, a] <:+: w →
      edgeMultiplicity preds w = 1 := by
  intro w
  induction w with
  | nil => intro _ _; simp [edgeMultiplicity]
  | cons b' rest ih =>
    intro hchain hno
    cases rest with
    | nil => simp [edgeMultiplicity]
    | cons a' rest =>
      rw [infix_pair_cons_cons] at hno
      rw [List.chain'_cons] at hchain
      have hne : (a', b') ≠ (a, b) := by
        intro h
        simp only [Prod.mk.injEq] at h
        exact hno (Or.inl ⟨h.2.symm, h.1.symm⟩)
      have h1 := hothers a' b' hne
      have h2 : 0 < (preds b').count a' := List.count_pos_iff.2 hchain.1
      rw [edgeMultiplicity, ih hchain.2 (fun h => hno (Or.inr h))]
      omega

theorem edgeMultiplicity_eq_of_infix (preds : Nat → List Nat) (a b k : Nat)
    (hk : (preds b).count a = k)
    (hothers : ∀ a' b', (a', b') ≠ (a, b) → (preds b').count a' ≤ 1) :
    ∀ w : List Nat, w.Chain' (fun b a => a ∈ preds b) → w.Nodup → [b, a] <:+: w →
      edgeMultiplicity preds w = k := by
  intro w
  induction w with
  | nil => intro _ _ h; simp at h
  | cons b' rest ih =>
    intro hchain hnd hin
    cases rest with
    | nil =>
      have := hin.length_le
      simp at this
    | cons a' rest =>
      rw [List.chain'_cons] at hchain
      rw [edgeMultiplicity]
      by_cases hhead : b = b' ∧ a = a'
      · obtain ⟨rfl, rfl⟩ := hhead
        have hnot : ¬ [b, a] <:+: a :: rest := by
          intro h
          have hb : b ∈ a :: rest := h.subset (List.mem_cons_self _ _)
          exact (List.nodup_cons.1 hnd).1 hb
        rw [edgeMultiplicity_eq_one preds a b hothers _ hchain.2 hnot, hk]
        omega
      · rw [infix_pair_cons_cons] at hin
        have hin' : [b, a] <:+: a' :: rest := hin.resolve_left hhead
        have hne : (a', b') ≠ (a, b) := by
          intro h
          simp only [Prod.mk.injEq] at h
          exact hhead ⟨h.2.symm, h.1.symm⟩
        have h1 := hothers a' b' hne
        have h2 : 0 < (preds b').count a' := List.count_pos_iff.2 hchain.1
        rw [ih hchain.2 (List.nodup_cons.1 hnd).2 hin']
        have : (preds b').count a' = 1 := by omega
        rw [this]
        omega

theorem isWalk_congr (preds preds' : Nat → List Nat)
    (h : ∀ b a, a ∈ preds' b ↔ a ∈ preds b) (E T : Nat) (w : List Nat) :
    IsWalk preds' E T w ↔ IsWalk preds E T w := by
  unfold IsWalk
  have hc : w.Chain' (fun a b => a ∈ preds' b) ↔ w.Chain' (fun a b => a ∈ preds b) :=
    List.Chain'.iff (fun {a b} => h b a)
  rw [hc]

theorem nodup_instrumentedBlocks (M : Module) (f : Nat) (Paths : List (List Nat)) :
    (instrumentedBlocks M f Paths).Nodup :=
  (instrumentLoop_inv f (getOrInsertFunction M coverageName coverageType) Paths
    { Instrumented := [], M := getOrInsertFunction M coverageName coverageType }
    ⟨List.nodup_nil, rfl⟩).1

/-- C20 (amended): a path from the entry `E` to the target `T` that meets `E`
at its start only is recorded by a finished search as often as the product,
over its edges, of the number of times the edge is listed. Hence, when no
block lists a predecessor twice, the recorded paths are pairwise distinct and
are exactly those walks; when one block `b` lists one predecessor `a` `k`
times and nothing else is listed twice, a recorded path is recorded `k` times
if it goes through the edge from `a` to `b` and once if not; and under any
other enumeration of the same edges the marked blocks are the same up to
their order, so that as many calls are created. -/
theorem recorded_paths_multiplicity (preds : Nat → List Nat) (T E fuel : Nat)
    (Paths : List (List Nat)) (hs : searchPaths preds T E fuel = some Paths) :
    (∀ r, IsWalk preds E T r → E ∉ r.tail → Paths.count r = pathMultiplicity preds r) ∧
      ((∀ b, (preds b).Nodup) →
        Paths.Nodup ∧ ∀ r, r ∈ Paths ↔ (IsWalk preds E T r ∧ E ∉ r.tail)) ∧
      (∀ a b k, (preds b).count a = k →
        (∀ a' b', (a', b') ≠ (a, b) → (preds b').count a' ≤ 1) →
        ∀ r ∈ Paths, ([a, b] <:+: r → Paths.count r = k) ∧
          (¬ [a, b] <:+: r → Paths.count r = 1)) ∧
      (∀ (preds' : Nat → List Nat) (fuel' : Nat) (Paths' : List (List Nat)),
        (∀ b a, a ∈ preds' b ↔ a ∈ preds b) →
        searchPaths preds' T E fuel' = some Paths' →
        ∀ (M : Module) (f : Nat),
          (instrumentedBlocks M f Paths').Perm (instrumentedBlocks M f Paths)) := by
  have hcount := searchPaths_count preds T E fuel Paths hs
  have hmem := searchPaths_mem preds T E fuel Paths hs
  refine ⟨hcount, ?_, ?_, ?_⟩
  · intro hnd
    refine ⟨?_, hmem⟩
    apply nodup_of_count_le_one
    intro r
    by_cases hr : r ∈ Paths
    · obtain ⟨hw, hE⟩ := (hmem r).1 hr
      rw [hcount r hw hE]
      exact edgeMultiplicity_le_one preds (fun b a => count_le_one_of_nodup _ (hnd b) a) _
    · rw [List.count_eq_zero_of_not_mem hr]
      omega
  · intro a b k hk hothers r hr
    obtain ⟨hw, hE⟩ := (hmem r).1 hr
    obtain ⟨hchain, hnd⟩ := recorded_reverse_chain_nodup preds T E fuel Paths hs r hr
    have hinf : [b, a] <:+: r.reverse ↔ [a, b] <:+: r := by
      have := @List.reverse_infix _ [a, b] r
      simpa using this
    rw [hcount r hw hE]
    unfold pathMultiplicity
    constructor
    · intro hin
      exact edgeMultiplicity_eq_of_infix preds a b k hk hothers _ hchain hnd (hinf.2 hin)
    · intro hin
      exact edgeMultiplicity_eq_one preds a b hothers _ hchain (fun h => hin (hinf.1 h))
  · intro preds' fuel' Paths' hsame hs' M f
    have hmem' := searchPaths_mem preds' T E fuel' Paths' hs'
    rw [List.perm_ext_iff_of_nodup (nodup_instrumentedBlocks M f Paths')
      (nodup_instrumentedBlocks M f Paths)]
    intro x
    rw [mem_instrumentedBlocks, mem_instrumentedBlocks]
    constructor
    · rintro ⟨p, hp, hx⟩
      have h1 := (hmem' p).1 hp
      exact ⟨p, (hmem p).2 ⟨(isWalk_congr preds preds' hsame E T p).1 h1.1, h1.2⟩, hx⟩
    · rintro ⟨p, hp, hx⟩
      have h1 := (hmem p).1 hp
      exact ⟨p, (hmem' p).2 ⟨(isWalk_congr preds preds' hsame E T p).2 h1.1, h1.2⟩, hx⟩

/-- C20, witness: the target of `parallelEdgeModule`, which lists the entry
twice and whose one path is recorded twice. -/
theorem recorded_paths_multiplicity_witness :
    searchPaths (predecessors parallelEdgeModule 0) 1 0 5 = some [[0, 1], [0, 1]] ∧
      ((∀ r, IsWalk (predecessors parallelEdgeModule 0) 0 1 r → 0 ∉ r.tail →
          [[0, 1], [0, 1]].count r = pathMultiplicity (predecessors parallelEdgeModule 0) r) ∧
        ((∀ b, (predecessors parallelEdgeModule 0 b).Nodup) →
          [[0, 1], [0, 1]].Nodup ∧
          ∀ r, r ∈ [[0, 1], [0, 1]] ↔
            (IsWalk (predecessors parallelEdgeModule 0) 0 1 r ∧ 0 ∉ r.tail)) ∧
        (∀ a b k, (predecessors parallelEdgeModule 0 b).count a = k →
          (∀ a' b', (a', b') ≠ (a, b) → (predecessors parallelEdgeModule 0 b').count a' ≤ 1) →
          ∀ r ∈ [[0, 1], [0, 1]], ([a, b] <:+: r → [[0, 1], [0, 1]].count r = k) ∧
            (¬ [a, b] <:+: r → [[0, 1], [0, 1]].count r = 1)) ∧
        (∀ (preds' : Nat → List Nat) (fuel' : Nat) (Paths' : List (List Nat)),
          (∀ b a, a ∈ preds' b ↔ a ∈ predecessors parallelEdgeModule 0 b) →
          searchPaths preds' 1 0 fuel' = some Paths' →
          ∀ (M : Module) (f : Nat),
            (instrumentedBlocks M f Paths').Perm
              (instrumentedBlocks M f [[0, 1], [0, 1]]))) :=
  ⟨by decide, recorded_paths_multiplicity (predecessors parallelEdgeModule 0) 1 0 5
    [[0, 1], [0, 1]] (by decide)⟩

/-- C20, as stated, fails: in `twoParallelEdgesModule` the target 2 lists its
predecessor 1 twice, the path 0, 1, 2 goes through that edge, and it is
recorded four times, since block 1 lists the entry twice as well. -/
theorem twoParallelEdges_path_recorded_four_times :
    searchPaths (predecessors twoParallelEdgesModule 0) 2 0 10
        = some [[0, 1, 2], [0, 1, 2], [0, 1, 2], [0, 1, 2]] ∧
      (predecessors twoParallelEdgesModule 0 2).count 1 = 2 ∧
      [1, 2] <:+: [0, 1, 2] ∧
      [[0, 1, 2], [0, 1, 2], [0, 1, 2], [0, 1, 2]].count [0, 1, 2] = 4 :=
  ⟨by decide, by decide, ⟨[0], [], rfl⟩, by decide⟩

end TrackPaths
